import Mathlib

/-!
Verification of the causaliq-core graph subsystem: semi-directed graphs (SDG),
DAGs and PDAGs, their validating constructors, the topological layering
function, the CPDAG conversion algorithms and the binary codec.

The graph implementation modules themselves are not present in the source
tree (only the enum definitions, the IO adapters and the test suite are), so
the graph types and operations are modelled from the specification, with the
behaviour pinned by the unit tests wherever the tests are more precise than
the prose.  Each such definition carries a doc comment starting
`Modelled from the spec:`.
-/

set_option maxRecDepth 10000

namespace CausaliqCore

/-- Endpoint marks of an edge (closed enum `EdgeMark` in the source). -/
inductive EdgeMark where
  | none | line | arrow | circle
deriving DecidableEq, Repr

/-- Edge kinds (closed enum `EdgeType` in the source), each carrying an
integer code, two endpoint marks and an ASCII symbol via the tables below. -/
inductive EdgeType where
  | NONE | DIRECTED | UNDIRECTED | BIDIRECTED
  | SEMIDIRECTED | NONDIRECTED | SEMIUNDIRECTED
deriving DecidableEq, Repr

namespace EdgeType

/-- Integer code of each `EdgeType` variant (0-6), as in the source enum. -/
def code : EdgeType → Nat
  | NONE => 0 | DIRECTED => 1 | UNDIRECTED => 2 | BIDIRECTED => 3
  | SEMIDIRECTED => 4 | NONDIRECTED => 5 | SEMIUNDIRECTED => 6

/-- Source endpoint mark of each variant, as in the source enum table. -/
def srcMark : EdgeType → EdgeMark
  | NONE => .none | DIRECTED => .line | UNDIRECTED => .line
  | BIDIRECTED => .arrow | SEMIDIRECTED => .circle
  | NONDIRECTED => .circle | SEMIUNDIRECTED => .circle

/-- Target endpoint mark of each variant, as in the source enum table. -/
def tgtMark : EdgeType → EdgeMark
  | NONE => .none | DIRECTED => .arrow | UNDIRECTED => .line
  | BIDIRECTED => .arrow | SEMIDIRECTED => .arrow
  | NONDIRECTED => .circle | SEMIUNDIRECTED => .line

/-- Canonical ASCII symbol of each variant, as in the source enum. -/
def symbol : EdgeType → String
  | NONE => "" | DIRECTED => "->" | UNDIRECTED => "-" | BIDIRECTED => "<->"
  | SEMIDIRECTED => "o->" | NONDIRECTED => "o-o" | SEMIUNDIRECTED => "o-"

/-- A variant is symmetric iff its two endpoint marks are equal; this holds
exactly for UNDIRECTED, BIDIRECTED and NONDIRECTED. -/
def symmetric (t : EdgeType) : Bool := t.srcMark == t.tgtMark

/-- Parse an edge symbol string back to its `EdgeType`; `none` for a symbol
that is not one of the seven canonical symbols (a `TypeError` in the code). -/
def ofSymbol : String → Option EdgeType
  | "" => some NONE | "->" => some DIRECTED | "-" => some UNDIRECTED
  | "<->" => some BIDIRECTED | "o->" => some SEMIDIRECTED
  | "o-o" => some NONDIRECTED | "o-" => some SEMIUNDIRECTED
  | _ => none

/-- Recover an `EdgeType` from its integer code; `none` for codes above 6. -/
def ofCode : Nat → Option EdgeType
  | 0 => some NONE | 1 => some DIRECTED | 2 => some UNDIRECTED
  | 3 => some BIDIRECTED | 4 => some SEMIDIRECTED | 5 => some NONDIRECTED
  | 6 => some SEMIUNDIRECTED | _ => none

end EdgeType

/-- Error taxonomy of the graph layer.  `valueErr`, `notDAGErr` and
`notPDAGErr` model Python `ValueError`, `NotDAGError` and `NotPDAGError`
(the latter two are `ValueError` subclasses); `typeErr` models `TypeError`;
`runtimeErr` models the defensive `RuntimeError` of `ordered_nodes`. -/
inductive GErr where
  | typeErr : String → GErr
  | valueErr : String → GErr
  | notDAGErr : String → GErr
  | notPDAGErr : String → GErr
  | runtimeErr : String → GErr
deriving DecidableEq, Repr

/-- A `GErr` is caught by `except ValueError` in Python iff it is a plain
`ValueError` or one of its two graph-specific subclasses. -/
def GErr.isValueError : GErr → Bool
  | .valueErr _ => true
  | .notDAGErr _ => true
  | .notPDAGErr _ => true
  | _ => false

/-- The class tag of a constructed graph object (`SDG`, `DAG` or `PDAG`). -/
inductive GClass where
  | SDG | DAG | PDAG
deriving DecidableEq, Repr

/-- Shared graph representation: the canonical node list and the edge map,
stored as an association list sorted by key.  Python's `dict` equality is
order-insensitive; keeping the list canonically sorted makes structural
equality coincide with map equality. -/
structure Graph where
  nodes : List String
  edges : List ((String × String) × EdgeType)
deriving DecidableEq, Repr

/-- A constructed graph object: the shared data plus the class tag recording
which validating constructor produced it. -/
structure GraphObj where
  cls : GClass
  graph : Graph
deriving DecidableEq, Repr

/-- Decidable equality of `Except` results, for evaluating concrete
constructor calls in witnesses. -/
instance {α : Type} [DecidableEq GErr] [DecidableEq α] :
    DecidableEq (Except GErr α)
  | .ok a, .ok b =>
    if h : a = b then .isTrue (by rw [h])
    else .isFalse (fun hc => by injection hc; contradiction)
  | .error a, .error b =>
    if h : a = b then .isTrue (by rw [h])
    else .isFalse (fun hc => by injection hc; contradiction)
  | .ok _, .error _ => .isFalse (fun hc => by injection hc)
  | .error _, .ok _ => .isFalse (fun hc => by injection hc)

/-- Character-list lexicographic comparison, the computable form of the
`<` order Python uses on `str` (code-point lexicographic). -/
def charsLt : List Char → List Char → Bool
  | [], [] => false
  | [], _ :: _ => true
  | _ :: _, [] => false
  | a :: as, b :: bs =>
    if a < b then true else if b < a then false else charsLt as bs

/-- Computable string strict comparison, equivalent to `String` `<`. -/
def strLt (a b : String) : Bool := charsLt a.data b.data

/-- Computable string comparison, equivalent to `String` `≤`. -/
def strLe (a b : String) : Bool := ! strLt b a

/-- Node ordering used for canonical sorting, as a decidable relation. -/
def nodeLe (a b : String) : Prop := strLe a b = true

/-- Linear-order-like relation on edge keys: lexicographic on the pair. -/
def keyLe (a b : String × String) : Prop :=
  (strLt a.1 b.1 || (a.1 == b.1 && strLe a.2 b.2)) = true

/-- Ordering on stored edges: by key. -/
def edgeLe (a b : (String × String) × EdgeType) : Prop := keyLe a.1 b.1

theorem charsLt_iff (as bs : List Char) :
    charsLt as bs = true ↔ List.Lex (· < ·) as bs := by
  induction as generalizing bs with
  | nil =>
    cases bs with
    | nil => simp [charsLt]
    | cons b bs2 => simp [charsLt, List.Lex.nil]
  | cons a as2 ih =>
    cases bs with
    | nil =>
      simp only [charsLt, Bool.false_eq_true, false_iff]
      exact fun h => by cases h
    | cons b bs2 =>
      unfold charsLt
      rcases lt_trichotomy a b with h | h | h
      · simp only [if_pos h, true_iff]
        exact List.Lex.rel h
      · subst h
        rw [if_neg (lt_irrefl a), if_neg (lt_irrefl a), ih bs2]
        constructor
        · exact fun h2 => List.Lex.cons h2
        · intro h2
          cases h2 with
          | cons h3 => exact h3
          | rel h3 => exact absurd h3 (lt_irrefl a)
      · rw [if_neg (asymm h), if_pos h]
        simp only [Bool.false_eq_true, false_iff]
        intro h2
        cases h2 with
        | cons h3 => exact absurd h (lt_irrefl a)
        | rel h3 => exact absurd h3 (asymm h)

theorem strLt_iff (a b : String) : strLt a b = true ↔ a < b := by
  rw [strLt, charsLt_iff, String.lt_iff_toList_lt]
  rfl

theorem strLe_iff (a b : String) : strLe a b = true ↔ a ≤ b := by
  rw [strLe, Bool.not_eq_true', ← Bool.not_eq_true, strLt_iff, not_lt]

theorem nodeLe_iff (a b : String) : nodeLe a b ↔ a ≤ b := strLe_iff a b

theorem keyLe_iff (a b : String × String) :
    keyLe a b ↔ a.1 < b.1 ∨ (a.1 = b.1 ∧ a.2 ≤ b.2) := by
  unfold keyLe
  simp only [Bool.or_eq_true, Bool.and_eq_true, beq_iff_eq, strLt_iff, strLe_iff]

instance : DecidableRel nodeLe := fun a b => by
  unfold nodeLe; infer_instance

instance : DecidableRel keyLe := fun a b => by
  unfold keyLe; infer_instance

instance : DecidableRel edgeLe := fun a b => by
  unfold edgeLe; infer_instance

instance : IsTotal String nodeLe where
  total a b := by
    rw [nodeLe_iff, nodeLe_iff]
    exact le_total a b

instance : IsTrans String nodeLe where
  trans a b c hab hbc := by
    rw [nodeLe_iff] at *
    exact le_trans hab hbc

instance : IsTotal (String × String) keyLe where
  total a b := by
    rw [keyLe_iff, keyLe_iff]
    rcases lt_trichotomy a.1 b.1 with h | h | h
    · exact Or.inl (Or.inl h)
    · rcases le_total a.2 b.2 with h2 | h2
      · exact Or.inl (Or.inr ⟨h, h2⟩)
      · exact Or.inr (Or.inr ⟨h.symm, h2⟩)
    · exact Or.inr (Or.inl h)

instance : IsTrans (String × String) keyLe where
  trans a b c hab hbc := by
    rw [keyLe_iff] at *
    rcases hab with h | ⟨h, h2⟩ <;> rcases hbc with h' | ⟨h', h2'⟩
    · exact Or.inl (h.trans h')
    · exact Or.inl (h' ▸ h)
    · exact Or.inl (h ▸ h')
    · exact Or.inr ⟨h.trans h', h2.trans h2'⟩

instance : IsTotal ((String × String) × EdgeType) edgeLe where
  total a b := IsTotal.total (r := keyLe) a.1 b.1

instance : IsTrans ((String × String) × EdgeType) edgeLe where
  trans a b c hab hbc := Trans.trans (r := keyLe) (s := keyLe) hab hbc

/-- Canonical storage key of an input edge `u → v` of type `t`: symmetric
types store the pair with the lexicographically smaller name first, while
asymmetric types keep the caller's source-to-target order. -/
def canonKey (u v : String) (t : EdgeType) : String × String :=
  if t.symmetric && strLt v u then (v, u) else (u, v)

/-- Canonicalize one input edge triple into its stored form. -/
def canonEdge (e : String × String × EdgeType) : (String × String) × EdgeType :=
  (canonKey e.1 e.2.1 e.2.2, e.2.2)

/-- Unordered pair key used for the duplicate-edge check: the pair sorted
ascending, so that `(u,v)` and `(v,u)` collide regardless of type. -/
def upair (u v : String) : String × String :=
  if strLt v u then (v, u) else (u, v)

/-- Modelled from the spec: the shared validating construction of the graph
base class (`SDG.__init__`, missing from src).  Checks the five universal
invariants in order (empty name, duplicate name, self-loop, unknown node,
duplicate unordered edge), then materializes the canonical representation:
nodes sorted ascending and edges keyed canonically, sorted by key. -/
def mkGraphCore (ns : List String) (es : List (String × String × EdgeType)) :
    Except GErr Graph :=
  if ns.any (· = "") then .error (.valueErr "empty node name")
  else if ¬ ns.Nodup then .error (.valueErr "duplicate node name")
  else if es.any (fun e => e.1 = e.2.1) then .error (.valueErr "self loop edge")
  else if es.any (fun e => e.1 ∉ ns ∨ e.2.1 ∉ ns) then
    .error (.valueErr "edge references unknown node")
  else if ¬ (es.map (fun e => upair e.1 e.2.1)).Nodup then
    .error (.valueErr "duplicate edge")
  else .ok { nodes := List.insertionSort nodeLe ns,
             edges := List.insertionSort edgeLe (es.map canonEdge) }

/-- Parse the `(source, symbol, target)` triples handed to a constructor;
an unrecognized symbol is a `TypeError`, as the source treats it as an
argument-shape problem rather than a value problem. -/
def parseEdges (raw : List (String × String × String)) :
    Except GErr (List (String × String × EdgeType)) :=
  match raw with
  | [] => .ok []
  | (u, sym, v) :: rest =>
    match EdgeType.ofSymbol sym with
    | some t => (parseEdges rest).map (fun es => (u, v, t) :: es)
    | none => .error (.typeErr "bad edge symbol")

/-- Sorted list of the DIRECTED-edge parents of node `n` in an edge list. -/
def parentsIn (es : List ((String × String) × EdgeType)) (n : String) :
    List String :=
  List.insertionSort nodeLe
    ((es.filter (fun e => e.2 = .DIRECTED ∧ e.1.2 = n)).map (fun e => e.1.1))

/-- Derived read-only `parents` mapping: node to sorted list of DIRECTED-edge
parents, with only nodes that have at least one parent appearing as keys. -/
def Graph.parents (g : Graph) : List (String × List String) :=
  (g.nodes.filter (fun n => ¬ parentsIn g.edges n = [])).map
    (fun n => (n, parentsIn g.edges n))

/-- Look up a node's parent list in a parents mapping; absent keys have no
parents (Python's `parents.get(n, [])`). -/
def parentsGet (ps : List (String × List String)) (n : String) : List String :=
  (ps.lookup n).getD []

/-- Modelled from the spec: the `new_arc=(u, v)` simulation of
`partial_order` adds `u` to `v`'s parent set in a local working copy,
leaving the caller's mapping untouched. -/
def addArc (ps : List (String × List String)) (u v : String) :
    List (String × List String) :=
  if (ps.lookup v).isSome then
    ps.map (fun kv => if kv.1 = v then (kv.1, kv.2 ++ [u]) else kv)
  else ps ++ [(v, [u])]

/-- Universe layered by `partial_order`: the keys of the parents mapping
unioned with the optional `nodes` argument, deduplicated and sorted. -/
def poUniverse (ps : List (String × List String)) (nodes : Option (List String)) :
    List String :=
  List.insertionSort nodeLe (ps.map Prod.fst ++ nodes.getD []).dedup

/-- One layer of the layering loop: the remaining nodes all of whose parents
are already placed. -/
def poLayer (ps : List (String × List String)) (placed remaining : List String) :
    List String :=
  remaining.filter (fun n => (parentsGet ps n).all (fun p => placed.contains p))

/-- The nodes a layering step leaves unplaced: those with a parent not yet
placed. -/
def poRest (ps : List (String × List String)) (placed remaining : List String) :
    List String :=
  remaining.filter (fun n => ! (parentsGet ps n).all (fun p => placed.contains p))

/-- Fueled layering loop of `partial_order`: peel off layers until the
remaining set is empty; `none` when a nonempty remainder yields an empty
layer (some node can never be placed). -/
def poLoop (ps : List (String × List String)) :
    Nat → List String → List String → Option (List (List String))
  | 0, _, remaining => if remaining.isEmpty then some [] else none
  | fuel + 1, placed, remaining =>
    if remaining.isEmpty then some [] else
    if (poLayer ps placed remaining).isEmpty then none
    else
      (poLoop ps fuel (placed ++ poLayer ps placed remaining)
        (poRest ps placed remaining)).map
        (fun rest => poLayer ps placed remaining :: rest)

/-- Modelled from the spec: `partial_order(parents, nodes=None, new_arc=None)`
(classmethod on the DAG class, missing from src).  Computes the topological
layering of the parent relation, returning `none` when some node can never
be placed; `new_arc` layers a locally modified copy of the mapping. -/
def partialOrder (ps : List (String × List String))
    (nodes : Option (List String) := none)
    (newArc : Option (String × String) := none) :
    Option (List (List String)) :=
  let ps2 := match newArc with
    | some (u, v) => addArc ps u v
    | none => ps
  let univ := poUniverse ps2 nodes
  poLoop ps2 univ.length [] univ

/-- Modelled from the spec: the DAG-specific validation on top of the shared
construction — every edge DIRECTED and the directed graph acyclic, each
violation a dedicated not-a-DAG error. -/
def mkDAGt (ns : List String) (es : List (String × String × EdgeType)) :
    Except GErr GraphObj := do
  let g ← mkGraphCore ns es
  if g.edges.any (fun e => ¬ e.2 = .DIRECTED) then
    .error (.notDAGErr "edge types not permissible in a DAG")
  else if (partialOrder g.parents (some g.nodes) none).isNone then
    .error (.notDAGErr "DAG contains directed cycle")
  else .ok ⟨.DAG, g⟩

/-- Modelled from the spec: the PDAG-specific validation on top of the shared
construction.  Every edge must be DIRECTED or UNDIRECTED; the cycle check
rejects a cycle among the DIRECTED edges (the tests
`test_graph_pdag_abc_acyclic2_ok` and `test_graph_pdag_abc_acyclic3_ok`
accept PDAGs whose directed-plus-undirected mixed walks do close a cycle, so
undirected edges do not participate in the check). -/
def mkPDAGt (ns : List String) (es : List (String × String × EdgeType)) :
    Except GErr GraphObj := do
  let g ← mkGraphCore ns es
  if g.edges.any (fun e => ¬ (e.2 = .DIRECTED ∨ e.2 = .UNDIRECTED)) then
    .error (.notPDAGErr "edge types not permissible in a PDAG")
  else if (partialOrder g.parents (some g.nodes) none).isNone then
    .error (.notPDAGErr "PDAG contains directed cycle")
  else .ok ⟨.PDAG, g⟩

/-- Modelled from the spec: the SDG constructor with symbol triples. -/
def mkSDG (ns : List String) (raw : List (String × String × String)) :
    Except GErr GraphObj := do
  let es ← parseEdges raw
  let g ← mkGraphCore ns es
  .ok ⟨.SDG, g⟩

/-- Modelled from the spec: the DAG constructor with symbol triples. -/
def mkDAG (ns : List String) (raw : List (String × String × String)) :
    Except GErr GraphObj := do
  let es ← parseEdges raw
  mkDAGt ns es

/-- Modelled from the spec: the PDAG constructor with symbol triples. -/
def mkPDAG (ns : List String) (raw : List (String × String × String)) :
    Except GErr GraphObj := do
  let es ← parseEdges raw
  mkPDAGt ns es

/-- Rename applied to a single node name: mapped names change, names absent
from the map keep their name. -/
def applyNameMap (m : List (String × String)) (n : String) : String :=
  (m.lookup n).getD n

/-- Modelled from the spec: `rename(name_map)` — every key must name an
existing node, then the node list and every edge key are rewritten under the
map and the canonical sort and symmetric-key canonicalization re-applied. -/
def Graph.rename (g : Graph) (m : List (String × String)) : Except GErr Graph :=
  if m.any (fun kv => kv.1 ∉ g.nodes) then
    .error (.valueErr "unknown node in name map")
  else
    mkGraphCore (g.nodes.map (applyNameMap m))
      (g.edges.map (fun e => (applyNameMap m e.1.1, applyNameMap m e.1.2, e.2)))

/-- An object heap indexed by reference identity, used to express the
in-place nature of `rename` as explicit state passing. -/
def Heap : Type := Nat → Option GraphObj

/-- Modelled from the spec: `g.rename(m)` mutates the receiver, so the heap
cell of the receiver's reference is replaced with the renamed data under the
same class tag, and every other reference is untouched. -/
def renameInPlace (h : Heap) (r : Nat) (m : List (String × String)) :
    Except GErr Heap :=
  match h r with
  | none => .error (.valueErr "dangling reference")
  | some o =>
    (o.graph.rename m).map
      (fun g2 => fun r2 => if r2 = r then some ⟨o.cls, g2⟩ else h r2)

/-- Dynamic Python value, for modelling arguments whose host type is only
checked at run time and equality against arbitrary values. -/
inductive PyVal where
  | vstr : String → PyVal
  | vint : Int → PyVal
  | vbool : Bool → PyVal
  | vnone : PyVal
  | vfloat : Int → Int → PyVal
  | vtuple : List PyVal → PyVal
  | vlist : List PyVal → PyVal
  | vgraph : GraphObj → PyVal

/-- Python `==` on the modelled values.  Graphs compare by `(nodes, edges)`
content alone — the class tag is ignored — and a graph compared with any
non-graph value is unequal; the comparison is a total function, so it never
raises.  (`vfloat` carries a sign-magnitude mantissa/exponent pair purely as
an opaque identity; no arithmetic is modelled.) -/
def pyEq (a b : PyVal) : Bool :=
  match a, b with
  | .vgraph x, .vgraph y =>
    x.graph.nodes == y.graph.nodes && x.graph.edges == y.graph.edges
  | .vgraph _, _ => false
  | _, .vgraph _ => false
  | .vstr x, .vstr y => x == y
  | .vint x, .vint y => x == y
  | .vbool x, .vbool y => x == y
  | .vfloat x1 x2, .vfloat y1 y2 => x1 == y1 && x2 == y2
  | .vnone, .vnone => true
  | _, _ => false

/-- Python `!=`, always the negation of `==` for these values. -/
def pyNe (a b : PyVal) : Bool := ¬ pyEq a b

/-- Modelled from the spec: `PDAG.edge_reversible((u, v))` — `True` iff the
unordered pair is stored with type UNDIRECTED (checked under both key
orders, being unable to know which order canonicalization kept), `False`
for directed or absent pairs, and a `TypeError` unless the argument is a
2-tuple of strings. -/
def edge_reversible (g : Graph) (arg : PyVal) : Except GErr Bool :=
  match arg with
  | .vtuple [.vstr u, .vstr v] =>
    .ok (g.edges.lookup (u, v) == some .UNDIRECTED
      || g.edges.lookup (v, u) == some .UNDIRECTED)
  | _ => .error (.typeErr "edge_reversible requires a 2-tuple of strings")

/-- Edge list membership of a DIRECTED edge `a → b`. -/
def isDirEdge (es : List ((String × String) × EdgeType)) (a b : String) : Bool :=
  es.any (fun e => e.2 == .DIRECTED && e.1.1 == a && e.1.2 == b)

/-- Edge list membership of an UNDIRECTED edge between `a` and `b`, in
either stored key order. -/
def isUndirPair (es : List ((String × String) × EdgeType)) (a b : String) : Bool :=
  es.any (fun e => e.2 == .UNDIRECTED &&
    ((e.1.1 == a && e.1.2 == b) || (e.1.1 == b && e.1.2 == a)))

/-- Adjacency in the skeleton: an edge of any type between `a` and `b`. -/
def adjacent (es : List ((String × String) × EdgeType)) (a b : String) : Bool :=
  es.any (fun e => (e.1.1 == a && e.1.2 == b) || (e.1.1 == b && e.1.2 == a))

/-- A v-structure `a → c ← b`: both edges DIRECTED into `c` from distinct,
non-adjacent sources. -/
def isVstruct (es : List ((String × String) × EdgeType)) (a c b : String) : Bool :=
  isDirEdge es a c && isDirEdge es b c && ¬ a == b && ¬ adjacent es a b

/-- Replace the undirected edge between `u` and `v` with the directed edge
`u → v`, in place in the edge list. -/
def orientEdge (es : List ((String × String) × EdgeType)) (u v : String) :
    List ((String × String) × EdgeType) :=
  es.map (fun e =>
    if e.2 == .UNDIRECTED &&
        ((e.1.1 == u && e.1.2 == v) || (e.1.1 == v && e.1.2 == u))
    then ((u, v), .DIRECTED) else e)

/-- Find one orientation `(b, c)` demanded by Meek rule R1: a directed
`a → b`, an undirected `b – c`, with `a` and `c` non-adjacent. -/
def findR1 (es : List ((String × String) × EdgeType)) :
    Option (String × String) :=
  es.findSome? (fun de =>
    if de.2 == .DIRECTED then
      let a := de.1.1
      let b := de.1.2
      es.findSome? (fun ue =>
        if ue.2 == .UNDIRECTED then
          if ue.1.1 == b && ¬ ue.1.2 == a && ¬ adjacent es a ue.1.2 then
            some (b, ue.1.2)
          else if ue.1.2 == b && ¬ ue.1.1 == a && ¬ adjacent es a ue.1.1 then
            some (b, ue.1.1)
          else none
        else none)
    else none)

/-- Find one orientation `(a, c)` demanded by Meek rule R2: directed
`a → b → c` with `a – c` undirected. -/
def findR2 (es : List ((String × String) × EdgeType)) :
    Option (String × String) :=
  es.findSome? (fun d1 =>
    if d1.2 == .DIRECTED then
      es.findSome? (fun d2 =>
        if d2.2 == .DIRECTED && d2.1.1 == d1.1.2 &&
            isUndirPair es d1.1.1 d2.1.2 then
          some (d1.1.1, d2.1.2)
        else none)
    else none)

/-- Find one orientation `(a, d)` demanded by Meek rule R3: `a – b`, `a – c`
undirected, `b → d` and `c → d` directed, `b`, `c` non-adjacent and `a – d`
undirected. -/
def findR3 (es : List ((String × String) × EdgeType)) :
    Option (String × String) :=
  es.findSome? (fun ad =>
    if ad.2 == .UNDIRECTED then
      let tryDiag := fun (a d : String) =>
        es.findSome? (fun b1 =>
          if b1.2 == .DIRECTED && b1.1.2 == d && isUndirPair es a b1.1.1 then
            es.findSome? (fun c1 =>
              if c1.2 == .DIRECTED && c1.1.2 == d && ¬ c1.1.1 == b1.1.1 &&
                  isUndirPair es a c1.1.1 && ¬ adjacent es b1.1.1 c1.1.1 then
                some (a, d)
              else none)
          else none)
      match tryDiag ad.1.1 ad.1.2 with
      | some p => some p
      | none => tryDiag ad.1.2 ad.1.1
    else none)

/-- One orientation demanded by any of Meek rules R1-R3, if any applies. -/
def findMeek (es : List ((String × String) × EdgeType)) :
    Option (String × String) :=
  match findR1 es with
  | some p => some p
  | none =>
    match findR2 es with
    | some p => some p
    | none => findR3 es

/-- Fueled fixpoint of the Meek orientation-propagation rules; each firing
orients one undirected edge, so fuel equal to the edge count suffices. -/
def meekLoop : Nat → List ((String × String) × EdgeType) →
    List ((String × String) × EdgeType)
  | 0, es => es
  | fuel + 1, es =>
    match findMeek es with
    | some (u, v) => meekLoop fuel (orientEdge es u v)
    | none => es

/-- A directed edge of the input DAG is compelled iff it participates in a
v-structure: another directed edge shares its target and the two sources
are non-adjacent. -/
def compelledIn (es : List ((String × String) × EdgeType))
    (e : (String × String) × EdgeType) : Bool :=
  e.2 == .DIRECTED && es.any (fun e2 => e2.2 == .DIRECTED &&
    e2.1.2 == e.1.2 && ¬ e2.1.1 == e.1.1 && ¬ adjacent es e.1.1 e2.1.1)

/-- Modelled from the spec: `dag_to_pdag` (exported as `fromDAG`, missing
from src) — keep v-structure edges DIRECTED, start everything else
UNDIRECTED, close under Meek rules R1-R3, and validate-construct the result
as a PDAG. -/
def fromDAG (g : Graph) : Except GErr GraphObj :=
  let init := g.edges.map (fun e =>
    if compelledIn g.edges e then e else (e.1, .UNDIRECTED))
  let final := meekLoop g.edges.length init
  mkPDAGt g.nodes (final.map (fun e => (e.1.1, e.1.2, e.2)))

/-- Skeleton neighbours of `x` within the not-yet-finalized node set. -/
def neighborsIn (es : List ((String × String) × EdgeType))
    (rem : List String) (x : String) : List String :=
  rem.filter (fun w => ¬ w == x && adjacent es x w)

/-- Undirected neighbours of `x` within the not-yet-finalized node set. -/
def undirNeighborsIn (es : List ((String × String) × EdgeType))
    (rem : List String) (x : String) : List String :=
  rem.filter (fun w => ¬ w == x && isUndirPair es x w)

/-- Dor-Tarsi eligibility of `x`: (a) `x` is not the source of a directed
edge to a not-yet-finalized node, and (b) every undirected neighbour of `x`
is adjacent to every other remaining neighbour of `x`. -/
def eligible (es : List ((String × String) × EdgeType))
    (rem : List String) (x : String) : Bool :=
  (¬ es.any (fun e => e.2 == .DIRECTED && e.1.1 == x && rem.contains e.1.2)) &&
  (undirNeighborsIn es rem x).all (fun u =>
    (neighborsIn es rem x).all (fun w => w == u || adjacent es u w))

/-- Orient every undirected edge at `x` as pointing into `x`. -/
def orientAllInto (es : List ((String × String) × EdgeType)) (x : String) :
    List ((String × String) × EdgeType) :=
  es.map (fun e =>
    if e.2 == .UNDIRECTED && e.1.1 == x then ((e.1.2, x), .DIRECTED)
    else if e.2 == .UNDIRECTED && e.1.2 == x then ((e.1.1, x), .DIRECTED)
    else e)

/-- Fueled Dor-Tarsi loop: while undirected edges remain, finalize an
eligible node, orienting its undirected edges into it; fail when no
eligible node exists. -/
def extendLoop : Nat → List ((String × String) × EdgeType) → List String →
    Except GErr (List ((String × String) × EdgeType))
  | 0, es, _ =>
    if es.any (fun e => e.2 == .UNDIRECTED) then
      .error (.valueErr "PDAG not extendable")
    else .ok es
  | fuel + 1, es, rem =>
    if ¬ es.any (fun e => e.2 == .UNDIRECTED) then .ok es
    else
      match rem.find? (fun x => eligible es rem x) with
      | some x => extendLoop fuel (orientAllInto es x) (rem.erase x)
      | none => .error (.valueErr "PDAG not extendable")

/-- Modelled from the spec: `extend_pdag` (exported as `extendPDAG`, missing
from src) — the Dor-Tarsi extension of a PDAG to one consistent member DAG,
validate-constructed at the end; `ValueError` when no eligible node exists
while undirected edges remain. -/
def extendPDAG (g : Graph) : Except GErr GraphObj := do
  let es ← extendLoop g.nodes.length g.edges g.nodes
  mkDAGt g.nodes (es.map (fun e => (e.1.1, e.1.2, e.2)))

/-- Modelled from the spec: `pdag_to_cpdag` — canonical form through one
extension: `dag_to_pdag(extend_pdag(pdag))`; the `ValueError` of an
unextendable PDAG propagates. -/
def pdag_to_cpdag (g : Graph) : Except GErr GraphObj := do
  let d ← extendPDAG g
  fromDAG d.graph

/-- Modelled from the spec: `is_cpdag(pdag)` — whether the graph equals its
own canonical CPDAG; the `ValueError` of an unextendable PDAG propagates
rather than being read as a negative answer. -/
def is_cpdag (g : Graph) : Except GErr Bool := do
  let c ← pdag_to_cpdag g
  pure (g.nodes == c.graph.nodes && g.edges == c.graph.edges)

/-- All ways of replacing every UNDIRECTED edge of a list, in place, by one
of its two directed orientations; directed and other edges are kept as they
are.  The Dor-Tarsi extension, when it succeeds, produces one of these. -/
def orientChoices : List ((String × String) × EdgeType) →
    List (List ((String × String) × EdgeType))
  | [] => [[]]
  | e :: rest =>
    let rests := orientChoices rest
    if e.2 == .UNDIRECTED then
      rests.map (fun r => ((e.1.1, e.1.2), EdgeType.DIRECTED) :: r) ++
      rests.map (fun r => ((e.1.2, e.1.1), EdgeType.DIRECTED) :: r)
    else rests.map (fun r => e :: r)

/-- Whether two edge lists over the node set `ns` have exactly the same
v-structures. -/
def sameVstructs (ns : List String)
    (es1 es2 : List ((String × String) × EdgeType)) : Bool :=
  ns.all (fun a => ns.all (fun c => ns.all (fun b =>
    isVstruct es1 a c b == isVstruct es2 a c b)))

/-- Whether an orientation of the undirected edges is a consistent DAG
extension: it validates as a DAG over the same nodes and introduces no new
v-structure (and loses none). -/
def extensionOk (g : Graph) (es : List ((String × String) × EdgeType)) : Bool :=
  (mkDAGt g.nodes (es.map (fun e => (e.1.1, e.1.2, e.2)))).isOk &&
  sameVstructs g.nodes es g.edges

/-- Whether the PDAG's undirected edges admit a consistent acyclic
extension without new v-structures, by finite enumeration of the in-place
orientations of its undirected edges. -/
def admitsExtension (g : Graph) : Bool :=
  (orientChoices g.edges).any (fun es => extensionOk g es)

/-- Big-endian 16-bit encoding of a count or length at most 65535. -/
def u16be (n : Nat) : List Nat := [n / 256, n % 256]

/-- UTF-8 encoding of one character (1 to 4 bytes). -/
def utf8Char (c : Char) : List Nat :=
  let n := c.toNat
  if n < 128 then [n]
  else if n < 2048 then [192 + n / 64, 128 + n % 64]
  else if n < 65536 then [224 + n / 4096, 128 + n / 64 % 64, 128 + n % 64]
  else [240 + n / 262144, 128 + n / 4096 % 64, 128 + n / 64 % 64, 128 + n % 64]

/-- UTF-8 encoding of a whole string. -/
def utf8Str (s : String) : List Nat := (s.data.map utf8Char).flatten

/-- Length in bytes of a name's UTF-8 encoding. -/
def utf8Len (s : String) : Nat := (utf8Str s).length

/-- Whether a byte is a UTF-8 continuation byte. -/
def isCont (b : Nat) : Prop := 128 ≤ b ∧ b < 192

instance : DecidablePred isCont := fun b => by unfold isCont; infer_instance

/-- Decode the single continuation byte of a 2-byte UTF-8 sequence. -/
def utf8Cont1 (b : Nat) : List Nat → Option (Char × List Nat)
  | b1 :: r1 =>
    if isCont b1 then some (Char.ofNat ((b - 192) * 64 + (b1 - 128)), r1)
    else none
  | [] => none

/-- Decode the two continuation bytes of a 3-byte UTF-8 sequence. -/
def utf8Cont2 (b : Nat) : List Nat → Option (Char × List Nat)
  | b1 :: b2 :: r2 =>
    if isCont b1 ∧ isCont b2 then
      some (Char.ofNat ((b - 224) * 4096 + (b1 - 128) * 64 + (b2 - 128)), r2)
    else none
  | _ => none

/-- Decode the three continuation bytes of a 4-byte UTF-8 sequence. -/
def utf8Cont3 (b : Nat) : List Nat → Option (Char × List Nat)
  | b1 :: b2 :: b3 :: r3 =>
    if isCont b1 ∧ isCont b2 ∧ isCont b3 then
      some (Char.ofNat ((b - 240) * 262144 + (b1 - 128) * 4096 +
        (b2 - 128) * 64 + (b3 - 128)), r3)
    else none
  | _ => none

/-- Decode one UTF-8 character from the front of a byte list; `none` on a
stray or missing continuation byte.  (Overlong forms are not rejected; no
observable behaviour of the codec depends on them.) -/
def utf8DecodeChar : List Nat → Option (Char × List Nat)
  | [] => none
  | b :: r =>
    if b < 128 then some (Char.ofNat b, r)
    else if b < 192 then none
    else if b < 224 then utf8Cont1 b r
    else if b < 240 then utf8Cont2 b r
    else if b < 248 then utf8Cont3 b r
    else none

/-- Fueled loop decoding a byte list into characters. -/
def utf8DecodeLoop : Nat → List Nat → Option (List Char)
  | _, [] => some []
  | 0, _ :: _ => none
  | fuel + 1, bs =>
    match utf8DecodeChar bs with
    | some (c, r) => (utf8DecodeLoop fuel r).map (fun cs => c :: cs)
    | none => none

/-- Decode a whole byte list as a UTF-8 string; `none` on malformed input
(Python's `UnicodeDecodeError`, a `ValueError` subclass). -/
def utf8Decode (bs : List Nat) : Option String :=
  (utf8DecodeLoop bs.length bs).map List.asString

/-- Modelled from the spec: `SDG.encode` — big-endian u16 node count, the
names as u16 byte length plus UTF-8 bytes in canonical order, u16 edge
count, then 5 bytes per edge (u16 source index, u16 target index, u8 type
code); `ValueError` when a count or a name's byte length exceeds 65535. -/
def encode (g : Graph) : Except GErr (List Nat) :=
  if g.nodes.length > 65535 then .error (.valueErr "too many nodes")
  else if g.nodes.any (fun n => utf8Len n > 65535) then
    .error (.valueErr "node name too long")
  else if g.edges.length > 65535 then .error (.valueErr "too many edges")
  else .ok (u16be g.nodes.length ++
    (g.nodes.map (fun n => u16be (utf8Len n) ++ utf8Str n)).flatten ++
    u16be g.edges.length ++
    (g.edges.map (fun e => u16be (g.nodes.indexOf e.1.1) ++
      u16be (g.nodes.indexOf e.1.2) ++ [e.2.code])).flatten)

/-- Read a big-endian u16 from the front of the buffer; `ValueError` when
fewer than two bytes remain. -/
def readU16 : List Nat → Except GErr (Nat × List Nat)
  | b0 :: b1 :: r => .ok (b0 * 256 + b1, r)
  | _ => .error (.valueErr "data too short")

/-- Read `k` length-prefixed UTF-8 names from the buffer. -/
def readNames : Nat → List Nat → Except GErr (List String × List Nat)
  | 0, bs => .ok ([], bs)
  | k + 1, bs => do
    let (len, r) ← readU16 bs
    if len ≤ r.length then
      match utf8Decode (r.take len) with
      | some s => do
        let (ss, r2) ← readNames k (r.drop len)
        .ok (s :: ss, r2)
      | none => .error (.valueErr "invalid utf-8 in node name")
    else .error (.valueErr "data too short")

/-- Read `k` edge records (u16 source index, u16 target index, u8 type
code) from the buffer, validating indices against the node count `nn` and
the type code against the seven known codes. -/
def readEdges (nn : Nat) : Nat → List Nat →
    Except GErr (List (Nat × Nat × Nat) × List Nat)
  | 0, bs => .ok ([], bs)
  | k + 1, bs => do
    let (s, r1) ← readU16 bs
    let (t, r2) ← readU16 r1
    match r2 with
    | c :: r3 =>
      if nn ≤ s ∨ nn ≤ t then .error (.valueErr "invalid node index in edge")
      else if (EdgeType.ofCode c).isNone then
        .error (.valueErr "invalid edge type")
      else do
        let (es, r4) ← readEdges nn k r3
        .ok ((s, t, c) :: es, r4)
    | [] => .error (.valueErr "data too short")

/-- Modelled from the spec: `SDG.decode` — parse the binary layout,
`ValueError` on any truncated buffer, out-of-range node index or
unrecognized edge-type code, and always validate-construct an `SDG`. -/
def decode (bs : List Nat) : Except GErr GraphObj := do
  let (nn, r1) ← readU16 bs
  let (names, r2) ← readNames nn r1
  let (ne, r3) ← readU16 r2
  let (raw, _r4) ← readEdges names.length ne r3
  let es := raw.map (fun e => (names.getD e.1 "", names.getD e.2.1 "",
    (EdgeType.ofCode e.2.2).getD .NONE))
  let g ← mkGraphCore names es
  pure ⟨.SDG, g⟩

/-- The invariants every successfully constructed graph satisfies: node
names nonempty, nodes strictly sorted (hence unique), edges sorted by key
with no self-loops, endpoints declared, unordered pairs unique, and
symmetric edge types stored with the smaller name first. -/
structure GraphValid (g : Graph) : Prop where
  nodesSorted : List.Sorted (· < ·) g.nodes
  namesNonempty : ∀ n ∈ g.nodes, n ≠ ""
  edgesSorted : List.Sorted edgeLe g.edges
  noSelfLoop : ∀ e ∈ g.edges, e.1.1 ≠ e.1.2
  endpointsMem : ∀ e ∈ g.edges, e.1.1 ∈ g.nodes ∧ e.1.2 ∈ g.nodes
  upairNodup : (g.edges.map (fun e => upair e.1.1 e.1.2)).Nodup
  symCanon : ∀ e ∈ g.edges, e.2.symmetric = true → e.1.1 < e.1.2

/-- The counts the binary codec can represent: at most 65535 nodes and
edges and at most 65535 UTF-8 bytes per node name. -/
def WithinLimits (g : Graph) : Prop :=
  g.nodes.length ≤ 65535 ∧ g.edges.length ≤ 65535 ∧
    ∀ n ∈ g.nodes, utf8Len n ≤ 65535

/-- A node of the layering universe that can eventually be placed: all of
its parents can be placed (in particular they all lie in the universe).
The spec glosses "the parent relation contains a cycle" as "some node can
never be placed"; this is the least fixpoint that makes that precise. -/
inductive Placeable (ps : List (String × List String)) (univ : List String) :
    String → Prop
  | intro : ∀ n, n ∈ univ → (∀ p ∈ parentsGet ps n, Placeable ps univ p) →
      Placeable ps univ n

/-- A genuine directed cycle of the parent relation: a node `n` and a path
`n → l₀ → … → n` in which each step goes from a parent to a child
(`a ∈ parentsGet ps b` is the edge `a → b`, read here child-first). -/
def HasCycle (ps : List (String × List String)) : Prop :=
  ∃ (n : String) (l : List String),
    List.Chain (fun a b => a ∈ parentsGet ps b) n (l ++ [n])

/-- Pointwise bookkeeping of the Dor-Tarsi orientation steps: an output
edge either keeps the input edge unchanged or replaces an UNDIRECTED input
edge by one of its two directed orientations, in place. -/
def keepOrOrient (e e2 : (String × String) × EdgeType) : Prop :=
  e2 = e ∨ (e.2 = EdgeType.UNDIRECTED ∧
    (e2 = ((e.1.1, e.1.2), EdgeType.DIRECTED) ∨
     e2 = ((e.1.2, e.1.1), EdgeType.DIRECTED)))

theorem strLt_false_of_lt {u v : String} (h : u < v) : ¬ strLt v u = true :=
  fun hc => absurd ((strLt_iff v u).mp hc) (asymm h)

theorem upair_comm (u v : String) : upair u v = upair v u := by
  unfold upair
  rcases lt_trichotomy u v with h | h | h
  · rw [if_neg (strLt_false_of_lt h), if_pos ((strLt_iff u v).mpr h)]
  · simp [h]
  · rw [if_pos ((strLt_iff v u).mpr h), if_neg (strLt_false_of_lt h)]

theorem upair_canonKey (u v : String) (t : EdgeType) :
    upair (canonKey u v t).1 (canonKey u v t).2 = upair u v := by
  unfold canonKey
  split
  · exact (upair_comm v u).symm ▸ rfl
  · rfl

theorem canonKey_mem_left (u v : String) (t : EdgeType) :
    (canonKey u v t).1 = u ∨ (canonKey u v t).1 = v := by
  unfold canonKey; split <;> simp

theorem canonKey_mem_right (u v : String) (t : EdgeType) :
    (canonKey u v t).2 = u ∨ (canonKey u v t).2 = v := by
  unfold canonKey; split <;> simp

theorem canonKey_ne (u v : String) (t : EdgeType) (h : u ≠ v) :
    (canonKey u v t).1 ≠ (canonKey u v t).2 := by
  unfold canonKey; split <;> simp [h, Ne.symm h]

theorem canonKey_sym_lt (u v : String) (t : EdgeType) (hne : u ≠ v)
    (hs : t.symmetric = true) :
    (canonKey u v t).1 < (canonKey u v t).2 := by
  unfold canonKey
  split
  · next h => exact (strLt_iff v u).mp (Bool.and_eq_true .. |>.mp h).2
  · next h =>
    rw [Bool.and_eq_true, hs] at h
    have hnlt : ¬ v < u := fun hlt =>
      h ⟨rfl, (strLt_iff v u).mpr hlt⟩
    exact lt_of_le_of_ne (not_lt.mp hnlt) hne

theorem mkGraphCore_ok {ns : List String} {es : List (String × String × EdgeType)}
    {g : Graph} (h : mkGraphCore ns es = .ok g) :
    (∀ n ∈ ns, n ≠ "") ∧ ns.Nodup ∧ (∀ e ∈ es, e.1 ≠ e.2.1) ∧
    (∀ e ∈ es, e.1 ∈ ns ∧ e.2.1 ∈ ns) ∧
    (es.map (fun e => upair e.1 e.2.1)).Nodup ∧
    g.nodes = List.insertionSort nodeLe ns ∧
    g.edges = List.insertionSort edgeLe (es.map canonEdge) := by
  unfold mkGraphCore at h
  split_ifs at h with h1 h2 h3 h4 h5
  injection h with h
  subst h
  refine ⟨fun n hn hempty => h1 ?_, h2, fun e he heq => h3 ?_,
    fun e he => ?_, h5, rfl, rfl⟩
  · simp only [List.any_eq_true, decide_eq_true_eq]
    exact ⟨n, hn, hempty⟩
  · simp only [List.any_eq_true, decide_eq_true_eq]
    exact ⟨e, he, heq⟩
  · by_contra hc
    apply h4
    simp only [List.any_eq_true, decide_eq_true_eq]
    rcases Decidable.em (e.1 ∈ ns) with hm | hm
    · exact ⟨e, he, Or.inr (fun hm2 => hc ⟨hm, hm2⟩)⟩
    · exact ⟨e, he, Or.inl hm⟩

theorem sorted_lt_of_le_nodup {l : List String}
    (hs : List.Sorted (· ≤ ·) l) (hn : l.Nodup) :
    List.Sorted (· < ·) l :=
  (hs.and hn).imp (fun h => lt_of_le_of_ne h.1 h.2)

theorem mkGraphCore_valid {ns : List String}
    {es : List (String × String × EdgeType)} {g : Graph}
    (h : mkGraphCore ns es = .ok g) : GraphValid g := by
  obtain ⟨hne, hnd, hsl, hem, hup, hn, he⟩ := mkGraphCore_ok h
  have hperm : g.nodes.Perm ns := hn ▸ List.perm_insertionSort _ ns
  have heperm : g.edges.Perm (es.map canonEdge) :=
    he ▸ List.perm_insertionSort _ _
  have hmemn : ∀ x, x ∈ g.nodes ↔ x ∈ ns := fun x => hperm.mem_iff
  have hmeme : ∀ x, x ∈ g.edges ↔ x ∈ es.map canonEdge := fun x => heperm.mem_iff
  refine ⟨?_, ?_, ?_, ?_, ?_, ?_, ?_⟩
  · exact sorted_lt_of_le_nodup
      ((hn ▸ List.sorted_insertionSort nodeLe ns).imp
        (fun h => (nodeLe_iff _ _).mp h))
      (hperm.nodup_iff.mpr hnd)
  · exact fun n hmem => hne n ((hmemn n).mp hmem)
  · exact he ▸ List.sorted_insertionSort _ _
  · intro e hmem
    obtain ⟨e0, he0, rfl⟩ := List.mem_map.mp ((hmeme e).mp hmem)
    exact canonKey_ne _ _ _ (hsl e0 he0)
  · intro e hmem
    obtain ⟨e0, he0, rfl⟩ := List.mem_map.mp ((hmeme e).mp hmem)
    obtain ⟨hu, hv⟩ := hem e0 he0
    constructor
    · rcases canonKey_mem_left e0.1 e0.2.1 e0.2.2 with h1 | h1 <;>
        rw [show (canonEdge e0).1.1 = (canonKey e0.1 e0.2.1 e0.2.2).1 from rfl, h1]
      · exact (hmemn _).mpr hu
      · exact (hmemn _).mpr hv
    · rcases canonKey_mem_right e0.1 e0.2.1 e0.2.2 with h1 | h1 <;>
        rw [show (canonEdge e0).1.2 = (canonKey e0.1 e0.2.1 e0.2.2).2 from rfl, h1]
      · exact (hmemn _).mpr hu
      · exact (hmemn _).mpr hv
  · have hmapped : (g.edges.map (fun e => upair e.1.1 e.1.2)).Perm
        ((es.map canonEdge).map (fun e => upair e.1.1 e.1.2)) := heperm.map _
    have heq : (es.map canonEdge).map (fun e => upair e.1.1 e.1.2) =
        es.map (fun e => upair e.1 e.2.1) := by
      rw [List.map_map]
      exact List.map_congr_left (fun e _ => upair_canonKey e.1 e.2.1 e.2.2)
    exact hmapped.nodup_iff.mpr (heq ▸ hup)
  · intro e hmem hsym
    obtain ⟨e0, he0, rfl⟩ := List.mem_map.mp ((hmeme e).mp hmem)
    exact canonKey_sym_lt _ _ _ (hsl e0 he0) hsym

theorem mkGraphCore_self {g : Graph} (hv : GraphValid g) :
    mkGraphCore g.nodes (g.edges.map (fun e => (e.1.1, e.1.2, e.2))) = .ok g := by
  have hnd : g.nodes.Nodup := hv.nodesSorted.imp (fun h => ne_of_lt h)
  have htriple : ∀ e ∈ g.edges, canonEdge (e.1.1, e.1.2, e.2) = e := by
    intro e hmem
    have : canonKey e.1.1 e.1.2 e.2 = e.1 := by
      unfold canonKey
      rw [if_neg]
      intro hc
      rw [Bool.and_eq_true] at hc
      exact strLt_false_of_lt (hv.symCanon e hmem hc.1) hc.2
    simp [canonEdge, this]
  have c1 : ¬ (g.nodes.any (· = "") = true) := by
    simp only [List.any_eq_true, decide_eq_true_eq, not_exists]
    rintro n ⟨hm, he⟩
    exact hv.namesNonempty n hm he
  have c2 : ¬ ¬ g.nodes.Nodup := not_not_intro hnd
  have c3 : ¬ ((g.edges.map (fun e => (e.1.1, e.1.2, e.2))).any
      (fun e => e.1 = e.2.1) = true) := by
    simp only [List.any_eq_true, decide_eq_true_eq, List.mem_map, not_exists]
    rintro e ⟨⟨e0, hmem, rfl⟩, heq⟩
    exact hv.noSelfLoop e0 hmem heq
  have c4 : ¬ ((g.edges.map (fun e => (e.1.1, e.1.2, e.2))).any
      (fun e => e.1 ∉ g.nodes ∨ e.2.1 ∉ g.nodes) = true) := by
    simp only [List.any_eq_true, decide_eq_true_eq, List.mem_map, not_exists]
    rintro e ⟨⟨e0, hmem, rfl⟩, heq⟩
    rcases heq with h1 | h1
    · exact h1 (hv.endpointsMem e0 hmem).1
    · exact h1 (hv.endpointsMem e0 hmem).2
  have c5 : ¬ ¬ ((g.edges.map (fun e => (e.1.1, e.1.2, e.2))).map
      (fun e => upair e.1 e.2.1)).Nodup := by
    rw [List.map_map]
    exact not_not_intro hv.upairNodup
  have hmap : (g.edges.map (fun e => (e.1.1, e.1.2, e.2))).map canonEdge =
      g.edges := by
    rw [List.map_map]
    have hpt : ∀ e ∈ g.edges,
        (canonEdge ∘ fun e => (e.1.1, e.1.2, e.2)) e = id e :=
      fun e h => htriple e h
    rw [List.map_congr_left hpt, List.map_id]
  unfold mkGraphCore
  rw [if_neg c1, if_neg c2, if_neg c3, if_neg c4, if_neg c5, hmap,
    List.Sorted.insertionSort_eq
      (hv.nodesSorted.imp (fun h => (nodeLe_iff _ _).mpr (le_of_lt h))),
    List.Sorted.insertionSort_eq hv.edgesSorted]

theorem except_bind_ok {α β : Type} {x : Except GErr α} {f : α → Except GErr β}
    {b : β} (h : (x >>= f) = .ok b) : ∃ a, x = .ok a ∧ f a = .ok b := by
  cases x with
  | ok a => exact ⟨a, rfl, h⟩
  | error e => exact absurd h (by simp [Bind.bind, Except.bind])

theorem except_bind_error {α β : Type} {x : Except GErr α}
    {f : α → Except GErr β} {e : GErr} (h : (x >>= f) = .error e) :
    x = .error e ∨ ∃ a, x = .ok a ∧ f a = .error e := by
  cases x with
  | ok a => exact Or.inr ⟨a, rfl, h⟩
  | error e2 => exact Or.inl (by simpa [Bind.bind, Except.bind] using h)

theorem mkSDG_ok {ns : List String} {raw : List (String × String × String)}
    {o : GraphObj} (h : mkSDG ns raw = .ok o) :
    o.cls = .SDG ∧ ∃ es, parseEdges raw = .ok es ∧
      mkGraphCore ns es = .ok o.graph := by
  unfold mkSDG at h
  obtain ⟨es, hes, h⟩ := except_bind_ok h
  obtain ⟨g, hg, h⟩ := except_bind_ok h
  injection h with h
  subst h
  exact ⟨rfl, es, hes, hg⟩

theorem mkDAGt_ok {ns : List String} {es : List (String × String × EdgeType)}
    {o : GraphObj} (h : mkDAGt ns es = .ok o) :
    o.cls = .DAG ∧ mkGraphCore ns es = .ok o.graph ∧
    (∀ e ∈ o.graph.edges, e.2 = .DIRECTED) ∧
    (partialOrder o.graph.parents (some o.graph.nodes) none).isSome := by
  unfold mkDAGt at h
  obtain ⟨g, hg, h⟩ := except_bind_ok h
  split_ifs at h with h1 h2
  injection h with h
  subst h
  simp only [List.any_eq_true, decide_eq_true_eq, not_exists] at h1
  refine ⟨rfl, hg, fun e he => by by_contra hc; exact h1 e ⟨he, hc⟩, ?_⟩
  cases hopt : partialOrder g.parents (some g.nodes) none with
  | none => exact absurd (by rw [hopt]; rfl) h2
  | some l => simp

theorem mkPDAGt_ok {ns : List String} {es : List (String × String × EdgeType)}
    {o : GraphObj} (h : mkPDAGt ns es = .ok o) :
    o.cls = .PDAG ∧ mkGraphCore ns es = .ok o.graph ∧
    (∀ e ∈ o.graph.edges, e.2 = .DIRECTED ∨ e.2 = .UNDIRECTED) ∧
    (partialOrder o.graph.parents (some o.graph.nodes) none).isSome := by
  unfold mkPDAGt at h
  obtain ⟨g, hg, h⟩ := except_bind_ok h
  split_ifs at h with h1 h2
  injection h with h
  subst h
  simp only [List.any_eq_true, decide_eq_true_eq, not_exists] at h1
  refine ⟨rfl, hg, fun e he => by by_contra hc; exact h1 e ⟨he, hc⟩, ?_⟩
  cases hopt : partialOrder g.parents (some g.nodes) none with
  | none => exact absurd (by rw [hopt]; rfl) h2
  | some l => simp

theorem decode_ok {bs : List Nat} {o : GraphObj} (h : decode bs = .ok o) :
    o.cls = .SDG ∧ ∃ names es, mkGraphCore names es = .ok o.graph := by
  unfold decode at h
  obtain ⟨⟨nn, r1⟩, _, h⟩ := except_bind_ok h
  obtain ⟨⟨names, r2⟩, _, h⟩ := except_bind_ok h
  obtain ⟨⟨ne, r3⟩, _, h⟩ := except_bind_ok h
  obtain ⟨⟨raw, r4⟩, _, h⟩ := except_bind_ok h
  obtain ⟨g, hg, h⟩ := except_bind_ok h
  injection h with h
  subst h
  exact ⟨rfl, names, _, hg⟩

theorem rename_ok {g : Graph} {m : List (String × String)} {g2 : Graph}
    (h : g.rename m = .ok g2) :
    (∀ kv ∈ m, kv.1 ∈ g.nodes) ∧
    mkGraphCore (g.nodes.map (applyNameMap m))
      (g.edges.map (fun e => (applyNameMap m e.1.1, applyNameMap m e.1.2, e.2)))
      = .ok g2 := by
  unfold Graph.rename at h
  split_ifs at h with h1
  simp only [List.any_eq_true, decide_eq_true_eq, not_exists] at h1
  refine ⟨fun kv hkv => ?_, h⟩
  by_contra hc
  exact h1 kv ⟨hkv, hc⟩

theorem keysNodup {g : Graph} (hv : GraphValid g) :
    (g.edges.map Prod.fst).Nodup := by
  have h := hv.upairNodup
  have heq : g.edges.map (fun e => upair e.1.1 e.1.2) =
      (g.edges.map Prod.fst).map (fun k => upair k.1 k.2) := by
    rw [List.map_map]; rfl
  exact List.Nodup.of_map _ (heq ▸ h)

theorem lookup_eq_some_iff_mem {l : List ((String × String) × EdgeType)}
    (hk : (l.map Prod.fst).Nodup) (k : String × String) (t : EdgeType) :
    l.lookup k = some t ↔ (k, t) ∈ l := by
  induction l with
  | nil => simp [List.lookup]
  | cons e rest ih =>
    rcases e with ⟨k0, t0⟩
    simp only [List.map_cons, List.nodup_cons] at hk
    by_cases hkk : k = k0
    · subst hkk
      simp only [List.lookup, beq_self_eq_true, if_pos]
      constructor
      · rintro h
        injection h with h
        subst h
        exact List.mem_cons_self _ _
      · intro hmem
        rcases List.mem_cons.mp hmem with h | h
        · injection h with h1 h2
          rw [h2]
        · exact absurd (List.mem_map.mpr ⟨(k, t), h, rfl⟩) hk.1
    · have hbeq : (k == k0) = false := beq_eq_false_iff_ne.mpr hkk
      simp only [List.lookup, hbeq]
      rw [ih hk.2]
      constructor
      · exact fun h => List.mem_cons_of_mem _ h
      · intro hmem
        rcases List.mem_cons.mp hmem with h | h
        · exact absurd (congrArg Prod.fst h) hkk
        · exact h

/-- Claim C9: equality of graphs is defined purely on `(nodes, edges)`
content, independently of the subtype tag of either side, and a graph
compared with any non-graph value is unequal under `==` and unequal-negated
under `!=`, with both comparisons total (they never raise). -/
theorem graph_equality_content_only :
    (∀ o1 o2 : GraphObj, pyEq (.vgraph o1) (.vgraph o2) = true ↔
      o1.graph.nodes = o2.graph.nodes ∧ o1.graph.edges = o2.graph.edges) ∧
    (∀ (o : GraphObj) (x : PyVal), (∀ o2 : GraphObj, x ≠ .vgraph o2) →
      pyEq (.vgraph o) x = false ∧ pyNe (.vgraph o) x = true ∧
      pyEq x (.vgraph o) = false ∧ pyNe x (.vgraph o) = true) := by
  constructor
  · intro o1 o2
    simp [pyEq]
  · intro o x hx
    cases x with
    | vgraph o2 => exact absurd rfl (hx o2)
    | vstr s => simp [pyEq, pyNe]
    | vint i => simp [pyEq, pyNe]
    | vbool b => simp [pyEq, pyNe]
    | vnone => simp [pyEq, pyNe]
    | vfloat a b => simp [pyEq, pyNe]
    | vtuple l => simp [pyEq, pyNe]
    | vlist l => simp [pyEq, pyNe]

/-- Claim C9 witness: a DAG-tagged and an SDG-tagged object with identical
data compare equal, and a graph compared with the integer 1 is unequal. -/
theorem graph_equality_content_only_witness :
    pyEq (.vgraph ⟨.DAG, ⟨["A", "B"], [(("A", "B"), .DIRECTED)]⟩⟩)
      (.vgraph ⟨.SDG, ⟨["A", "B"], [(("A", "B"), .DIRECTED)]⟩⟩) = true ∧
    pyEq (.vgraph ⟨.DAG, ⟨["A", "B"], [(("A", "B"), .DIRECTED)]⟩⟩)
      (.vint 1) = false :=
  ⟨(graph_equality_content_only.1 _ _).mpr ⟨rfl, rfl⟩,
   (graph_equality_content_only.2 _ _
     (fun o2 h => PyVal.noConfusion h)).1⟩

/-- Claim C6: on a validly constructed PDAG, `edge_reversible((u, v))`
returns `True` exactly when the unordered pair `{u, v}` is stored with type
UNDIRECTED (so both argument orders agree, every DIRECTED or absent pair —
including `u = v` — gives `False`), and any argument that is not a 2-tuple
of strings raises `TypeError`. -/
theorem edge_reversible_spec :
    ∀ (ns : List String) (es : List (String × String × EdgeType))
      (o : GraphObj), mkPDAGt ns es = .ok o →
      (∀ u v : String,
        edge_reversible o.graph (.vtuple [.vstr u, .vstr v]) =
          .ok (decide ((upair u v, EdgeType.UNDIRECTED) ∈ o.graph.edges))) ∧
      (∀ arg : PyVal, (∀ u v : String, arg ≠ .vtuple [.vstr u, .vstr v]) →
        ∃ msg, edge_reversible o.graph arg = .error (.typeErr msg)) := by
  intro ns es o h
  have hv : GraphValid o.graph := mkGraphCore_valid (mkPDAGt_ok h).2.1
  have hlk := lookup_eq_some_iff_mem (keysNodup hv)
  constructor
  · intro u v
    have hred : edge_reversible o.graph (.vtuple [.vstr u, .vstr v]) =
        .ok (o.graph.edges.lookup (u, v) == some .UNDIRECTED
          || o.graph.edges.lookup (v, u) == some .UNDIRECTED) := rfl
    rw [hred]
    congr 1
    rw [Bool.eq_iff_iff]
    simp only [Bool.or_eq_true, beq_iff_eq, decide_eq_true_eq]
    rw [hlk (u, v), hlk (v, u)]
    constructor
    · rintro (hm | hm)
      · have : upair u v = (u, v) := by
          unfold upair
          rw [if_neg (strLt_false_of_lt (hv.symCanon _ hm rfl))]
        rw [this]; exact hm
      · have : upair u v = (v, u) := by
          rw [upair_comm]
          unfold upair
          rw [if_neg (strLt_false_of_lt (hv.symCanon _ hm rfl))]
        rw [this]; exact hm
    · intro hm
      unfold upair at hm
      split at hm
      · exact Or.inr hm
      · exact Or.inl hm
  · intro arg harg
    cases arg with
    | vgraph o2 => exact ⟨_, rfl⟩
    | vstr s => exact ⟨_, rfl⟩
    | vint i => exact ⟨_, rfl⟩
    | vbool b => exact ⟨_, rfl⟩
    | vnone => exact ⟨_, rfl⟩
    | vfloat a b => exact ⟨_, rfl⟩
    | vlist l => exact ⟨_, rfl⟩
    | vtuple l =>
      match l with
      | [] => exact ⟨_, rfl⟩
      | [a] =>
        cases a <;> exact ⟨_, rfl⟩
      | a :: b :: c :: rest => cases a <;> cases b <;> exact ⟨_, rfl⟩
      | [a, b] =>
        cases a with
        | vstr u =>
          cases b with
          | vstr v => exact absurd rfl (harg u v)
          | vgraph o2 => exact ⟨_, rfl⟩
          | vint i => exact ⟨_, rfl⟩
          | vbool x => exact ⟨_, rfl⟩
          | vnone => exact ⟨_, rfl⟩
          | vfloat x y => exact ⟨_, rfl⟩
          | vtuple x => exact ⟨_, rfl⟩
          | vlist x => exact ⟨_, rfl⟩
        | vgraph o2 => cases b <;> exact ⟨_, rfl⟩
        | vint i => cases b <;> exact ⟨_, rfl⟩
        | vbool x => cases b <;> exact ⟨_, rfl⟩
        | vnone => cases b <;> exact ⟨_, rfl⟩
        | vfloat x y => cases b <;> exact ⟨_, rfl⟩
        | vtuple x => cases b <;> exact ⟨_, rfl⟩
        | vlist x => cases b <;> exact ⟨_, rfl⟩

/-- Claim C6 witness: on the PDAG `A - B - C`, the pair `("A", "B")` is
reversible in both orders, `("A", "C")` and `("A", "A")` are not, and the
integer 27 raises `TypeError`. -/
theorem edge_reversible_spec_witness :
    mkPDAGt ["A", "B", "C"] [("A", "B", .UNDIRECTED), ("B", "C", .UNDIRECTED)]
      = .ok ⟨.PDAG, ⟨["A", "B", "C"],
        [(("A", "B"), .UNDIRECTED), (("B", "C"), .UNDIRECTED)]⟩⟩ ∧
    edge_reversible ⟨["A", "B", "C"],
        [(("A", "B"), .UNDIRECTED), (("B", "C"), .UNDIRECTED)]⟩
      (.vtuple [.vstr "A", .vstr "B"]) = .ok true ∧
    edge_reversible ⟨["A", "B", "C"],
        [(("A", "B"), .UNDIRECTED), (("B", "C"), .UNDIRECTED)]⟩
      (.vtuple [.vstr "B", .vstr "A"]) = .ok true ∧
    edge_reversible ⟨["A", "B", "C"],
        [(("A", "B"), .UNDIRECTED), (("B", "C"), .UNDIRECTED)]⟩
      (.vtuple [.vstr "A", .vstr "C"]) = .ok false ∧
    edge_reversible ⟨["A", "B", "C"],
        [(("A", "B"), .UNDIRECTED), (("B", "C"), .UNDIRECTED)]⟩
      (.vtuple [.vstr "A", .vstr "A"]) = .ok false ∧
    (∃ msg, edge_reversible ⟨["A", "B", "C"],
        [(("A", "B"), .UNDIRECTED), (("B", "C"), .UNDIRECTED)]⟩
      (.vint 27) = .error (.typeErr msg)) := by
  have hcons : mkPDAGt ["A", "B", "C"]
      [("A", "B", .UNDIRECTED), ("B", "C", .UNDIRECTED)]
      = .ok ⟨.PDAG, ⟨["A", "B", "C"],
        [(("A", "B"), .UNDIRECTED), (("B", "C"), .UNDIRECTED)]⟩⟩ := by decide
  have hs := edge_reversible_spec _ _ _ hcons
  refine ⟨hcons, ?_, ?_, ?_, ?_, ?_⟩
  · rw [hs.1 "A" "B"]; decide
  · rw [hs.1 "B" "A"]; decide
  · rw [hs.1 "A" "C"]; decide
  · rw [hs.1 "A" "A"]; decide
  · exact hs.2 (.vint 27) (fun u v h => PyVal.noConfusion h)


/-- Claim C10: `rename(name_map)` mutates the receiver in place — after it
returns, the receiver's own heap cell holds the renamed, re-sorted and
re-canonicalized data (no return value is consumed), the object keeps its
original class tag, and no other reference is affected. -/
theorem rename_in_place_spec :
    ∀ (h : Heap) (r : Nat) (o : GraphObj) (m : List (String × String))
      (h2 : Heap), h r = some o → renameInPlace h r m = .ok h2 →
    ∃ g2, o.graph.rename m = .ok g2 ∧
      h2 r = some ⟨o.cls, g2⟩ ∧
      (∀ r2, r2 ≠ r → h2 r2 = h r2) ∧
      GraphValid g2 ∧
      g2.nodes = List.insertionSort nodeLe (o.graph.nodes.map (applyNameMap m)) ∧
      g2.edges = List.insertionSort edgeLe
        ((o.graph.edges.map (fun e =>
          (applyNameMap m e.1.1, applyNameMap m e.1.2, e.2))).map canonEdge) := by
  intro h r o m h2 hr hrip
  unfold renameInPlace at hrip
  rw [hr] at hrip
  have hrip2 : Except.map
      (fun g2 r2 => if r2 = r then some (GraphObj.mk o.cls g2) else h r2)
      (o.graph.rename m) = .ok h2 := hrip
  cases hg : o.graph.rename m with
  | error e =>
    rw [hg] at hrip2
    exact absurd hrip2 (by simp [Except.map])
  | ok g2 =>
    rw [hg] at hrip2
    simp only [Except.map] at hrip2
    injection hrip2 with hrip2
    subst hrip2
    obtain ⟨hkeys, hcore⟩ := rename_ok hg
    obtain ⟨_, _, _, _, _, hn, he⟩ := mkGraphCore_ok hcore
    refine ⟨g2, rfl, by simp, fun r2 hner => by simp [if_neg hner],
      mkGraphCore_valid hcore, hn, he⟩

/-- Claim C10 witness: renaming `A` to `AA` on the heap object at
reference 0 updates that cell in place (same SDG class tag, sorted renamed
data) and leaves reference 1 untouched. -/
theorem rename_in_place_spec_witness :
    ∃ g2, (GraphObj.mk .SDG ⟨["A", "B"], [(("A", "B"), .UNDIRECTED)]⟩).graph.rename
        [("A", "AA"), ("B", "B")] = .ok g2 ∧
      (fun r2 => if r2 = 0 then
          some ⟨GClass.SDG, ⟨["AA", "B"], [(("AA", "B"), EdgeType.UNDIRECTED)]⟩⟩
        else (fun i => if i = 0 then
            some ⟨GClass.SDG, ⟨["A", "B"], [(("A", "B"), EdgeType.UNDIRECTED)]⟩⟩
          else if i = 1 then
            some ⟨GClass.DAG, ⟨["C"], []⟩⟩
          else none) r2 : Heap) 0 = some ⟨(GraphObj.mk .SDG
            ⟨["A", "B"], [(("A", "B"), .UNDIRECTED)]⟩).cls, g2⟩ ∧
      (∀ r2, r2 ≠ 0 →
        (fun r2 => if r2 = 0 then
          some ⟨GClass.SDG, ⟨["AA", "B"], [(("AA", "B"), EdgeType.UNDIRECTED)]⟩⟩
        else (fun i => if i = 0 then
            some ⟨GClass.SDG, ⟨["A", "B"], [(("A", "B"), EdgeType.UNDIRECTED)]⟩⟩
          else if i = 1 then
            some ⟨GClass.DAG, ⟨["C"], []⟩⟩
          else none) r2 : Heap) r2 =
        (fun i => if i = 0 then
            some ⟨GClass.SDG, ⟨["A", "B"], [(("A", "B"), EdgeType.UNDIRECTED)]⟩⟩
          else if i = 1 then
            some ⟨GClass.DAG, ⟨["C"], []⟩⟩
          else none : Heap) r2) ∧
      GraphValid g2 ∧
      g2.nodes = List.insertionSort nodeLe
        ((GraphObj.mk .SDG ⟨["A", "B"],
          [(("A", "B"), .UNDIRECTED)]⟩).graph.nodes.map
            (applyNameMap [("A", "AA"), ("B", "B")])) ∧
      g2.edges = List.insertionSort edgeLe
        (((GraphObj.mk .SDG ⟨["A", "B"],
          [(("A", "B"), .UNDIRECTED)]⟩).graph.edges.map (fun e =>
            (applyNameMap [("A", "AA"), ("B", "B")] e.1.1,
             applyNameMap [("A", "AA"), ("B", "B")] e.1.2, e.2))).map
          canonEdge) :=
  rename_in_place_spec
    (fun i => if i = 0 then
        some ⟨GClass.SDG, ⟨["A", "B"], [(("A", "B"), EdgeType.UNDIRECTED)]⟩⟩
      else if i = 1 then
        some ⟨GClass.DAG, ⟨["C"], []⟩⟩
      else none)
    0 ⟨.SDG, ⟨["A", "B"], [(("A", "B"), .UNDIRECTED)]⟩⟩
    [("A", "AA"), ("B", "B")] _ rfl rfl

/-- Claim C7: after every successful construction, every rename and every
decode, the node list is in ascending lexicographic order regardless of
input order; every symmetric-type edge is stored under its ascending
unordered pair, and asymmetric-type edges keep the caller's
source-to-target key order. -/
theorem canonical_ordering_spec :
    (∀ (ns : List String) (es : List (String × String × EdgeType)) (g : Graph),
      mkGraphCore ns es = .ok g →
      List.Sorted (· < ·) g.nodes ∧
      (∀ u v t, (u, v, t) ∈ es →
        (if t.symmetric then (upair u v, t) else ((u, v), t)) ∈ g.edges) ∧
      (∀ e ∈ g.edges, e.2.symmetric = true → e.1.1 < e.1.2)) ∧
    (∀ (g : Graph) (m : List (String × String)) (g2 : Graph),
      g.rename m = .ok g2 →
      List.Sorted (· < ·) g2.nodes ∧
      (∀ e ∈ g2.edges, e.2.symmetric = true → e.1.1 < e.1.2)) ∧
    (∀ (bs : List Nat) (o : GraphObj), decode bs = .ok o →
      List.Sorted (· < ·) o.graph.nodes ∧
      (∀ e ∈ o.graph.edges, e.2.symmetric = true → e.1.1 < e.1.2)) := by
  have hcanon : ∀ (u v : String) (t : EdgeType),
      canonEdge (u, v, t) = (if t.symmetric then (upair u v, t)
        else ((u, v), t)) := by
    intro u v t
    unfold canonEdge canonKey upair
    cases hsym : t.symmetric with
    | true => simp
    | false => simp
  refine ⟨?_, ?_, ?_⟩
  · intro ns es g h
    have hv := mkGraphCore_valid h
    obtain ⟨_, _, _, _, _, _, he⟩ := mkGraphCore_ok h
    refine ⟨hv.nodesSorted, ?_, hv.symCanon⟩
    intro u v t hmem
    have h1 : canonEdge (u, v, t) ∈ es.map canonEdge :=
      List.mem_map.mpr ⟨(u, v, t), hmem, rfl⟩
    have h2 : canonEdge (u, v, t) ∈ g.edges :=
      (he ▸ (List.perm_insertionSort edgeLe (es.map canonEdge)).mem_iff).mpr h1
    exact hcanon u v t ▸ h2
  · intro g m g2 h
    have hv := mkGraphCore_valid (rename_ok h).2
    exact ⟨hv.nodesSorted, hv.symCanon⟩
  · intro bs o h
    obtain ⟨_, names, es, hcore⟩ := decode_ok h
    have hv := mkGraphCore_valid hcore
    exact ⟨hv.nodesSorted, hv.symCanon⟩

theorem poLayer_mem {ps : List (String × List String)}
    {placed remaining : List String} {n : String} :
    n ∈ poLayer ps placed remaining ↔
      n ∈ remaining ∧ ∀ p ∈ parentsGet ps n, p ∈ placed := by
  unfold poLayer
  rw [List.mem_filter]
  simp only [List.all_eq_true, List.elem_iff]

theorem poRest_mem {ps : List (String × List String)}
    {placed remaining : List String} {n : String} :
    n ∈ poRest ps placed remaining ↔
      n ∈ remaining ∧ ¬ ∀ p ∈ parentsGet ps n, p ∈ placed := by
  unfold poRest
  rw [List.mem_filter]
  simp only [Bool.not_eq_true', ← Bool.not_eq_true, List.all_eq_true,
    List.elem_iff]

theorem poLoop_none {ps : List (String × List String)} {univ : List String} :
    ∀ (fuel : Nat) (placed remaining : List String),
      remaining.length ≤ fuel →
      (∀ n ∈ univ, n ∈ placed ∨ n ∈ remaining) →
      (∀ n ∈ remaining, n ∉ placed) →
      (∀ n ∈ remaining, n ∈ univ) →
      poLoop ps fuel placed remaining = none →
      ∃ n ∈ univ, ¬ Placeable ps univ n := by
  intro fuel
  induction fuel with
  | zero =>
    intro placed remaining hlen hcov hdisj hsub hnone
    have : remaining = [] := List.length_eq_zero.mp (Nat.le_zero.mp hlen)
    subst this
    exact absurd hnone (by simp [poLoop])
  | succ fuel ih =>
    intro placed remaining hlen hcov hdisj hsub hnone
    unfold poLoop at hnone
    by_cases hemp : remaining.isEmpty = true
    · rw [if_pos hemp] at hnone
      exact absurd hnone (by simp)
    · rw [if_neg hemp] at hnone
      by_cases hl : (poLayer ps placed remaining).isEmpty = true
      · have hne : remaining ≠ [] := by
          simpa [List.isEmpty_iff] using hemp
        obtain ⟨n0, hn0⟩ := List.exists_mem_of_ne_nil remaining hne
        refine ⟨n0, hsub n0 hn0, fun hpl => ?_⟩
        have hstuck : ∀ x, Placeable ps univ x → x ∈ placed := by
          intro x hx
          induction hx with
          | intro y hyu hyp ihy =>
            rcases hcov y hyu with h | h
            · exact h
            · exfalso
              have hmem : y ∈ poLayer ps placed remaining :=
                poLayer_mem.mpr ⟨h, fun p hp => ihy p hp⟩
              rw [List.isEmpty_iff] at hl
              rw [hl] at hmem
              exact List.not_mem_nil y hmem
        exact hdisj n0 hn0 (hstuck n0 hpl)
      · rw [if_neg hl] at hnone
        have hrec : poLoop ps fuel (placed ++ poLayer ps placed remaining)
            (poRest ps placed remaining) = none := by
          cases hr : poLoop ps fuel (placed ++ poLayer ps placed remaining)
              (poRest ps placed remaining) with
          | none => rfl
          | some rest => rw [hr] at hnone; exact absurd hnone (by simp)
        have hlnonempty : poLayer ps placed remaining ≠ [] := by
          simpa [List.isEmpty_iff] using hl
        obtain ⟨x0, hx0⟩ :=
          List.exists_mem_of_ne_nil (poLayer ps placed remaining) hlnonempty
        obtain ⟨hx0r, hx0c⟩ := poLayer_mem.mp hx0
        have hlen2 : (poRest ps placed remaining).length < remaining.length := by
          apply List.length_filter_lt_length_iff_exists.mpr
          refine ⟨x0, hx0r, ?_⟩
          simp only [Bool.not_eq_true', ← Bool.not_eq_true, Decidable.not_not,
            List.all_eq_true, List.elem_iff]
          exact fun p hp => hx0c p hp
        apply ih (placed ++ poLayer ps placed remaining)
          (poRest ps placed remaining)
          (Nat.le_of_lt_succ (Nat.lt_of_lt_of_le hlen2 hlen))
          ?_ ?_ ?_ hrec
        · intro n hn
          rcases hcov n hn with h | h
          · exact Or.inl (List.mem_append.mpr (Or.inl h))
          · by_cases hc : ∀ p ∈ parentsGet ps n, p ∈ placed
            · exact Or.inl (List.mem_append.mpr
                (Or.inr (poLayer_mem.mpr ⟨h, hc⟩)))
            · exact Or.inr (poRest_mem.mpr ⟨h, hc⟩)
        · intro n hn
          obtain ⟨hnr, hnc⟩ := poRest_mem.mp hn
          intro hmem
          rcases List.mem_append.mp hmem with h | h
          · exact hdisj n hnr h
          · exact hnc (poLayer_mem.mp h).2
        · exact fun n hn => hsub n (poRest_mem.mp hn).1

theorem poLoop_some_placeable {ps : List (String × List String)}
    {univ : List String} :
    ∀ (fuel : Nat) (placed remaining : List String) (L : List (List String)),
      (∀ p ∈ placed, Placeable ps univ p) →
      (∀ n ∈ remaining, n ∈ univ) →
      poLoop ps fuel placed remaining = some L →
      ∀ n ∈ remaining, Placeable ps univ n := by
  intro fuel
  induction fuel with
  | zero =>
    intro placed remaining L hpl hsub hsome n hn
    unfold poLoop at hsome
    split_ifs at hsome with h
    rw [List.isEmpty_iff] at h
    rw [h] at hn
    exact absurd hn (List.not_mem_nil n)
  | succ fuel ih =>
    intro placed remaining L hpl hsub hsome n hn
    unfold poLoop at hsome
    by_cases hemp : remaining.isEmpty = true
    · rw [List.isEmpty_iff] at hemp
      rw [hemp] at hn
      exact absurd hn (List.not_mem_nil n)
    · rw [if_neg hemp] at hsome
      by_cases hl : (poLayer ps placed remaining).isEmpty = true
      · rw [if_pos hl] at hsome
        cases hsome
      · rw [if_neg hl] at hsome
        have hlayerP : ∀ x ∈ poLayer ps placed remaining,
            Placeable ps univ x := by
          intro x hx
          obtain ⟨hxr, hxc⟩ := poLayer_mem.mp hx
          exact Placeable.intro x (hsub x hxr) (fun p hp => hpl p (hxc p hp))
        cases hr : poLoop ps fuel (placed ++ poLayer ps placed remaining)
            (poRest ps placed remaining) with
        | none => rw [hr] at hsome; cases hsome
        | some rest =>
          by_cases hc : ∀ p ∈ parentsGet ps n, p ∈ placed
          · exact hlayerP n (poLayer_mem.mpr ⟨hn, hc⟩)
          · refine ih (placed ++ poLayer ps placed remaining)
              (poRest ps placed remaining) rest ?_ ?_ hr n
              (poRest_mem.mpr ⟨hn, hc⟩)
            · intro p hp
              rcases List.mem_append.mp hp with h | h
              · exact hpl p h
              · exact hlayerP p h
            · exact fun m hm => hsub m (poRest_mem.mp hm).1

theorem poLoop_layers {ps : List (String × List String)} :
    ∀ (fuel : Nat) (placed remaining : List String) (L : List (List String)),
      poLoop ps fuel placed remaining = some L →
      ∀ (k : Nat), k < L.length → ∀ n,
        (n ∈ L.getD k [] ↔ n ∈ remaining ∧ (∀ j < k, n ∉ L.getD j []) ∧
          (∀ p ∈ parentsGet ps n,
            p ∈ placed ∨ ∃ j < k, p ∈ L.getD j [])) := by
  intro fuel
  induction fuel with
  | zero =>
    intro placed remaining L hsome k hk n
    unfold poLoop at hsome
    split_ifs at hsome with h
    injection hsome with hsome
    subst hsome
    exact absurd hk (Nat.not_lt_zero k)
  | succ fuel ih =>
    intro placed remaining L hsome k hk n
    unfold poLoop at hsome
    by_cases hemp : remaining.isEmpty = true
    · rw [if_pos hemp] at hsome
      injection hsome with hsome
      subst hsome
      exact absurd hk (Nat.not_lt_zero k)
    · rw [if_neg hemp] at hsome
      by_cases hl : (poLayer ps placed remaining).isEmpty = true
      · rw [if_pos hl] at hsome
        cases hsome
      · rw [if_neg hl] at hsome
        cases hr : poLoop ps fuel (placed ++ poLayer ps placed remaining)
            (poRest ps placed remaining) with
        | none => rw [hr] at hsome; cases hsome
        | some rest =>
          rw [hr] at hsome
          simp only [Option.map] at hsome
          injection hsome with hsome
          subst hsome
          cases k with
          | zero =>
            simp only [List.getD_cons_zero]
            rw [poLayer_mem]
            constructor
            · rintro ⟨h1, h2⟩
              exact ⟨h1, fun j hj => absurd hj (Nat.not_lt_zero j),
                fun p hp => Or.inl (h2 p hp)⟩
            · rintro ⟨h1, _, h3⟩
              refine ⟨h1, fun p hp => ?_⟩
              rcases h3 p hp with h | ⟨j, hj, _⟩
              · exact h
              · exact absurd hj (Nat.not_lt_zero j)
          | succ k =>
            have hk2 : k < rest.length := by simpa using hk
            have hih := ih (placed ++ poLayer ps placed remaining)
              (poRest ps placed remaining) rest hr k hk2 n
            simp only [List.getD_cons_succ]
            rw [hih]
            constructor
            · rintro ⟨hrest, hnotin, hpar⟩
              obtain ⟨hrem, hncond⟩ := poRest_mem.mp hrest
              refine ⟨hrem, ?_, ?_⟩
              · intro j hj
                cases j with
                | zero =>
                  simp only [List.getD_cons_zero]
                  intro hmem
                  exact hncond (poLayer_mem.mp hmem).2
                | succ j =>
                  simp only [List.getD_cons_succ]
                  exact hnotin j (by omega)
              · intro p hp
                rcases hpar p hp with h | ⟨j, hj, hmem⟩
                · rcases List.mem_append.mp h with h | h
                  · exact Or.inl h
                  · exact Or.inr ⟨0, Nat.succ_pos k, by simpa using h⟩
                · exact Or.inr ⟨j + 1, by omega, by simpa using hmem⟩
            · rintro ⟨hrem, hnotin, hpar⟩
              have hn0 : n ∉ poLayer ps placed remaining := by
                have := hnotin 0 (Nat.succ_pos k)
                simpa using this
              have hncond : ¬ ∀ p ∈ parentsGet ps n, p ∈ placed :=
                fun hc => hn0 (poLayer_mem.mpr ⟨hrem, hc⟩)
              refine ⟨poRest_mem.mpr ⟨hrem, hncond⟩, ?_, ?_⟩
              · intro j hj
                have := hnotin (j + 1) (by omega)
                simpa using this
              · intro p hp
                rcases hpar p hp with h | ⟨j, hj, hmem⟩
                · exact Or.inl (List.mem_append.mpr (Or.inl h))
                · cases j with
                  | zero =>
                    exact Or.inl (List.mem_append.mpr
                      (Or.inr (by simpa using hmem)))
                  | succ j =>
                    exact Or.inr ⟨j, by omega, by simpa using hmem⟩

theorem mem_keys_of_parentsGet_ne_nil {ps : List (String × List String)}
    {n : String} (h : parentsGet ps n ≠ []) : n ∈ ps.map Prod.fst := by
  unfold parentsGet at h
  induction ps with
  | nil => simp [List.lookup] at h
  | cons kv rest ih =>
    by_cases hk : n = kv.1
    · exact List.mem_map.mpr ⟨kv, List.mem_cons_self _ _, hk.symm⟩
    · have hbeq : (n == kv.1) = false := beq_eq_false_iff_ne.mpr hk
      rcases kv with ⟨k, v⟩
      simp only [List.lookup, hbeq] at h
      exact List.mem_cons_of_mem _ (ih h)

theorem chain_pred {R : String → String → Prop} :
    ∀ (xs : List String) (a : String), List.Chain R a xs →
      ∀ b ∈ xs, ∃ c ∈ a :: xs, R c b := by
  intro xs
  induction xs with
  | nil => intro a _ b hb; exact absurd hb (List.not_mem_nil b)
  | cons x rest ih =>
    intro a hch b hb
    rcases List.chain_cons.mp hch with ⟨hax, hrest⟩
    rcases List.mem_cons.mp hb with rfl | hb2
    · exact ⟨a, List.mem_cons_self _ _, hax⟩
    · obtain ⟨c, hc, hcb⟩ := ih x hrest b hb2
      exact ⟨c, List.mem_cons_of_mem _ hc, hcb⟩

theorem hasCycle_unplaceable {ps : List (String × List String)}
    {univ : List String} (hkeys : ∀ n ∈ ps.map Prod.fst, n ∈ univ)
    (hc : HasCycle ps) : ∃ n ∈ univ, ¬ Placeable ps univ n := by
  obtain ⟨nn, l, hch⟩ := hc
  have hpred : ∀ b ∈ nn :: l, ∃ c ∈ nn :: l, c ∈ parentsGet ps b := by
    intro b hb
    have hb2 : b ∈ l ++ [nn] := by
      rcases List.mem_cons.mp hb with rfl | hb2
      · exact List.mem_append.mpr (Or.inr (List.mem_singleton.mpr rfl))
      · exact List.mem_append.mpr (Or.inl hb2)
    obtain ⟨c, hcmem, hcp⟩ := chain_pred (l ++ [nn]) nn hch b hb2
    refine ⟨c, ?_, hcp⟩
    rcases List.mem_cons.mp hcmem with rfl | hcmem2
    · exact List.mem_cons_self _ _
    · rcases List.mem_append.mp hcmem2 with h | h
      · exact List.mem_cons_of_mem _ h
      · rw [List.mem_singleton.mp h]
        exact List.mem_cons_self _ _
  have hnoS : ∀ x, Placeable ps univ x → x ∉ nn :: l := by
    intro x hx
    induction hx with
    | intro y hyu hyp ihy =>
      intro hyS
      obtain ⟨c, hcS, hcp⟩ := hpred y hyS
      exact ihy c hcp hcS
  obtain ⟨c0, _, hc0p⟩ := hpred nn (List.mem_cons_self _ _)
  have hnnk : nn ∈ ps.map Prod.fst :=
    mem_keys_of_parentsGet_ne_nil (List.ne_nil_of_mem hc0p)
  exact ⟨nn, hkeys nn hnnk,
    fun hpl => hnoS nn hpl (List.mem_cons_self _ _)⟩

theorem cycle_from_chain {ps : List (String × List String)}
    {univ : List String}
    {f : Nat → {y : String // y ∈ univ ∧ ¬ Placeable ps univ y}}
    (hfs : ∀ i, (f (i + 1)).1 ∈ parentsGet ps (f i).1)
    (i j : Nat) (hij : i < j) (heq : (f i).1 = (f j).1) : HasCycle ps := by
  have hchain : ∀ d : Nat,
      List.Chain (fun a b => a ∈ parentsGet ps b) ((f (i + d)).1)
        (((List.range d).reverse).map (fun k => (f (i + k)).1)) := by
    intro d
    induction d with
    | zero => exact List.Chain.nil
    | succ d ihd =>
      rw [List.range_succ, List.reverse_append]
      simp only [List.reverse_singleton, List.singleton_append, List.map_cons]
      exact List.Chain.cons (hfs (i + d)) ihd
  obtain ⟨e, he⟩ : ∃ e, j - i = e + 1 :=
    ⟨j - i - 1, by omega⟩
  have hsplit : ((List.range (e + 1)).reverse).map (fun k => (f (i + k)).1) =
      ((((List.range e).map Nat.succ).reverse).map (fun k => (f (i + k)).1)) ++
        [(f (i + 0)).1] := by
    rw [List.range_succ_eq_map, List.reverse_cons, List.map_append]
    rfl
  have hch := hchain (e + 1)
  rw [hsplit] at hch
  have hj : i + (e + 1) = j := by omega
  rw [hj] at hch
  simp only [Nat.add_zero] at hch
  rw [heq] at hch
  exact ⟨(f j).1, _, hch⟩

theorem unplaceable_hasCycle {ps : List (String × List String)}
    {univ : List String}
    (hcl : ∀ n ∈ univ, ∀ p ∈ parentsGet ps n, p ∈ univ)
    {x : String} (hxu : x ∈ univ) (hxnp : ¬ Placeable ps univ x) :
    HasCycle ps := by
  classical
  have hstep : ∀ y : {y : String // y ∈ univ ∧ ¬ Placeable ps univ y},
      ∃ z : {z : String // z ∈ univ ∧ ¬ Placeable ps univ z},
        z.1 ∈ parentsGet ps y.1 := by
    rintro ⟨y, hyu, hynp⟩
    by_cases hall : ∀ p ∈ parentsGet ps y, Placeable ps univ p
    · exact absurd (Placeable.intro y hyu hall) hynp
    · push_neg at hall
      obtain ⟨p, hp, hpnp⟩ := hall
      exact ⟨⟨p, hcl y hyu p hp, hpnp⟩, hp⟩
  choose F hF using hstep
  set f : Nat → {y : String // y ∈ univ ∧ ¬ Placeable ps univ y} :=
    fun i => F^[i] ⟨x, hxu, hxnp⟩ with hfdef
  have hfs : ∀ i, (f (i + 1)).1 ∈ parentsGet ps (f i).1 := by
    intro i
    have : f (i + 1) = F (f i) := Function.iterate_succ_apply' F i _
    rw [this]
    exact hF (f i)
  have hmapsto : ∀ i ∈ Finset.range (univ.length + 1),
      (f i).1 ∈ univ.toFinset := by
    intro i _
    exact List.mem_toFinset.mpr (f i).2.1
  have hcard : univ.toFinset.card < (Finset.range (univ.length + 1)).card := by
    rw [Finset.card_range]
    exact Nat.lt_succ_of_le univ.toFinset_card_le
  obtain ⟨i, _, j, _, hne, heq⟩ :=
    Finset.exists_ne_map_eq_of_card_lt_of_maps_to hcard hmapsto
  rcases hne.lt_or_lt with hij | hij
  · exact cycle_from_chain hfs i j hij heq
  · exact cycle_from_chain hfs j i hij heq.symm

theorem poLoop_covers {ps : List (String × List String)} :
    ∀ (fuel : Nat) (placed remaining : List String) (L : List (List String)),
      poLoop ps fuel placed remaining = some L →
      ∀ n ∈ remaining, ∃ k < L.length, n ∈ L.getD k [] := by
  intro fuel
  induction fuel with
  | zero =>
    intro placed remaining L hsome n hn
    unfold poLoop at hsome
    split_ifs at hsome with h
    rw [List.isEmpty_iff] at h
    rw [h] at hn
    exact absurd hn (List.not_mem_nil n)
  | succ fuel ih =>
    intro placed remaining L hsome n hn
    unfold poLoop at hsome
    by_cases hemp : remaining.isEmpty = true
    · rw [List.isEmpty_iff] at hemp
      rw [hemp] at hn
      exact absurd hn (List.not_mem_nil n)
    · rw [if_neg hemp] at hsome
      by_cases hl : (poLayer ps placed remaining).isEmpty = true
      · rw [if_pos hl] at hsome; cases hsome
      · rw [if_neg hl] at hsome
        cases hr : poLoop ps fuel (placed ++ poLayer ps placed remaining)
            (poRest ps placed remaining) with
        | none => rw [hr] at hsome; cases hsome
        | some rest =>
          rw [hr] at hsome
          simp only [Option.map] at hsome
          injection hsome with hsome
          subst hsome
          by_cases hc : ∀ p ∈ parentsGet ps n, p ∈ placed
          · exact ⟨0, Nat.succ_pos _, by
              simpa using poLayer_mem.mpr ⟨hn, hc⟩⟩
          · obtain ⟨k, hk, hmem⟩ := ih _ _ rest hr n (poRest_mem.mpr ⟨hn, hc⟩)
            exact ⟨k + 1, by simpa using hk, by simpa using hmem⟩

theorem mem_poUniverse {ps : List (String × List String)}
    {nodes : Option (List String)} {n : String} :
    n ∈ poUniverse ps nodes ↔
      n ∈ ps.map Prod.fst ∨ n ∈ nodes.getD [] := by
  unfold poUniverse
  rw [(List.perm_insertionSort nodeLe _).mem_iff, List.mem_dedup,
    List.mem_append]

/-- Claim C5: `partial_order` returns the layering in which layer 0 is
exactly the universe nodes with no parents and layer `k` is exactly the
still-unplaced nodes all of whose parents lie in earlier layers, with every
universe node placed in some layer; it returns `none` exactly when some node
can never be placed (the spec's reading of "the parent relation contains a
cycle"), which — whenever every parent name lies in the universe — is
exactly when the parent relation has a genuine directed cycle; `new_arc=(u,v)`
computes the layering of the mapping with `u` added to `v`'s parents, the
caller's mapping being untouched (the argument is passed by value); and the
two concrete examples of the spec evaluate as stated. -/
theorem partial_order_spec :
    (∀ (ps : List (String × List String)) (nodes : Option (List String))
        (L : List (List String)),
      partialOrder ps nodes none = some L →
      (∀ k, k < L.length → ∀ n,
        (n ∈ L.getD k [] ↔ n ∈ poUniverse ps nodes ∧
          (∀ j < k, n ∉ L.getD j []) ∧
          (∀ p ∈ parentsGet ps n, ∃ j < k, p ∈ L.getD j []))) ∧
      (∀ n ∈ poUniverse ps nodes, ∃ k < L.length, n ∈ L.getD k [])) ∧
    (∀ (ps : List (String × List String)) (nodes : Option (List String)),
      partialOrder ps nodes none = none ↔
        ∃ n ∈ poUniverse ps nodes,
          ¬ Placeable ps (poUniverse ps nodes) n) ∧
    (∀ (ps : List (String × List String)) (nodes : Option (List String)),
      (∀ n ∈ poUniverse ps nodes, ∀ p ∈ parentsGet ps n,
        p ∈ poUniverse ps nodes) →
      (partialOrder ps nodes none = none ↔ HasCycle ps)) ∧
    (∀ (ps : List (String × List String)) (nodes : Option (List String))
        (u v : String),
      partialOrder ps nodes (some (u, v)) =
        partialOrder (addArc ps u v) nodes none) ∧
    partialOrder [("B", ["A"])] (some ["A", "B", "C"]) none =
      some [["A", "C"], ["B"]] ∧
    partialOrder [("A", ["B"]), ("B", ["A"])] none none = none := by
  have hnone_iff : ∀ (ps : List (String × List String))
      (nodes : Option (List String)),
      partialOrder ps nodes none = none ↔
        ∃ n ∈ poUniverse ps nodes,
          ¬ Placeable ps (poUniverse ps nodes) n := by
    intro ps nodes
    constructor
    · intro hnone
      exact poLoop_none (poUniverse ps nodes).length [] (poUniverse ps nodes)
        le_rfl (fun n hn => Or.inr hn)
        (fun n _ => List.not_mem_nil n)
        (fun n hn => hn) hnone
    · intro ⟨n, hn, hnp⟩
      cases hL : partialOrder ps nodes none with
      | none => rfl
      | some L =>
        exact absurd (poLoop_some_placeable (poUniverse ps nodes).length []
          (poUniverse ps nodes) L (fun p hp => absurd hp (List.not_mem_nil p))
          (fun m hm => hm) hL n hn) hnp
  refine ⟨?_, hnone_iff, ?_, fun ps nodes u v => rfl, by decide, by decide⟩
  · intro ps nodes L hsome
    constructor
    · intro k hk n
      have := poLoop_layers (poUniverse ps nodes).length [] (poUniverse ps nodes)
        L hsome k hk n
      rw [this]
      constructor
      · rintro ⟨h1, h2, h3⟩
        refine ⟨h1, h2, fun p hp => ?_⟩
        rcases h3 p hp with h | h
        · exact absurd h (List.not_mem_nil p)
        · exact h
      · rintro ⟨h1, h2, h3⟩
        exact ⟨h1, h2, fun p hp => Or.inr (h3 p hp)⟩
    · exact fun n hn => poLoop_covers (poUniverse ps nodes).length []
        (poUniverse ps nodes) L hsome n hn
  · intro ps nodes hcl
    rw [hnone_iff]
    constructor
    · rintro ⟨n, hn, hnp⟩
      exact unplaceable_hasCycle hcl hn hnp
    · intro hc
      apply hasCycle_unplaceable (fun n hn => mem_poUniverse.mpr (Or.inl hn)) hc

/-- Claim C5 witness: on the spec's concrete example, layer 1 of
`partial_order({"B": ["A"]}, nodes=["A","B","C"])` contains exactly the
nodes whose parents all lie in layer 0, and the two-node cyclic mapping
yields `none`. -/
theorem partial_order_spec_witness :
    ("B" ∈ ([["A", "C"], ["B"]] : List (List String)).getD 1 [] ↔
      "B" ∈ poUniverse [("B", ["A"])] (some ["A", "B", "C"]) ∧
      (∀ j < 1, "B" ∉ ([["A", "C"], ["B"]] : List (List String)).getD j []) ∧
      (∀ p ∈ parentsGet [("B", ["A"])] "B",
        ∃ j < 1, p ∈ ([["A", "C"], ["B"]] : List (List String)).getD j [])) ∧
    partialOrder [("A", ["B"]), ("B", ["A"])] none none = none :=
  ⟨(partial_order_spec.1 [("B", ["A"])] (some ["A", "B", "C"])
      [["A", "C"], ["B"]] (by decide)).1 1 (by decide) "B",
   partial_order_spec.2.2.2.2.2⟩

theorem lookup_mem {l : List (String × List String)} {k : String}
    {v : List String} (h : l.lookup k = some v) : (k, v) ∈ l := by
  induction l with
  | nil => simp [List.lookup] at h
  | cons kv rest ih =>
    rcases kv with ⟨k0, v0⟩
    by_cases hk : k = k0
    · subst hk
      simp only [List.lookup, beq_self_eq_true] at h
      injection h with h
      subst h
      exact List.mem_cons_self _ _
    · have hbeq : (k == k0) = false := beq_eq_false_iff_ne.mpr hk
      simp only [List.lookup, hbeq] at h
      exact List.mem_cons_of_mem _ (ih h)

theorem parentsIn_subset {g : Graph} (hv : GraphValid g) (n : String) :
    ∀ p ∈ parentsIn g.edges n, p ∈ g.nodes := by
  intro p hp
  unfold parentsIn at hp
  rw [(List.perm_insertionSort nodeLe _).mem_iff] at hp
  obtain ⟨e, he, rfl⟩ := List.mem_map.mp hp
  exact (hv.endpointsMem e (List.mem_of_mem_filter he)).1

theorem parentsGet_parents_subset {g : Graph} (hv : GraphValid g) (n : String) :
    ∀ p ∈ parentsGet g.parents n, p ∈ g.nodes := by
  intro p hp
  unfold parentsGet at hp
  cases hlk : g.parents.lookup n with
  | none => rw [hlk] at hp; exact absurd hp (List.not_mem_nil p)
  | some l =>
    rw [hlk] at hp
    have hmem := lookup_mem hlk
    unfold Graph.parents at hmem
    obtain ⟨m, _, heq⟩ := List.mem_map.mp hmem
    have hml : l = parentsIn g.edges n := by
      injection heq with h1 h2
      rw [← h2, h1]
    rw [hml] at hp
    exact parentsIn_subset hv n p hp

theorem parents_keys_subset {g : Graph} :
    ∀ n ∈ g.parents.map Prod.fst, n ∈ g.nodes := by
  intro n hn
  unfold Graph.parents at hn
  rw [List.map_map] at hn
  obtain ⟨m, hm, heq⟩ := List.mem_map.mp hn
  have : m = n := heq
  subst this
  exact List.mem_of_mem_filter hm

theorem partialOrder_graph_none_iff_hasCycle {g : Graph} (hv : GraphValid g) :
    (partialOrder g.parents (some g.nodes) none = none ↔
      HasCycle g.parents) := by
  set univ := poUniverse g.parents (some (g.nodes)) with huniv
  have hsub : ∀ p ∈ g.nodes, p ∈ univ :=
    fun p hp => mem_poUniverse.mpr (Or.inr hp)
  have hcl : ∀ n ∈ univ, ∀ p ∈ parentsGet g.parents n, p ∈ univ :=
    fun n _ p hp => hsub p (parentsGet_parents_subset hv n p hp)
  constructor
  · intro hnone
    obtain ⟨n, hn, hnp⟩ := poLoop_none univ.length [] univ le_rfl
      (fun n hn => Or.inr hn) (fun n _ => List.not_mem_nil n)
      (fun n hn => hn) hnone
    exact unplaceable_hasCycle hcl hn hnp
  · intro hc
    obtain ⟨n, hn, hnp⟩ := hasCycle_unplaceable
      (fun n hn => hsub n (parents_keys_subset n hn)) hc
    cases hL : partialOrder g.parents (some g.nodes) none with
    | none => rfl
    | some L =>
      exact absurd (poLoop_some_placeable univ.length [] univ L
        (fun p hp => absurd hp (List.not_mem_nil p))
        (fun m hm => hm) hL n hn) hnp

theorem edge_types_preserved {ns : List String}
    {es : List (String × String × EdgeType)} {g : Graph}
    (h : mkGraphCore ns es = .ok g) :
    ∀ e ∈ g.edges, ∃ e0 ∈ es, e.2 = e0.2.2 := by
  obtain ⟨_, _, _, _, _, _, he⟩ := mkGraphCore_ok h
  intro e hmem
  rw [he, (List.perm_insertionSort edgeLe _).mem_iff] at hmem
  obtain ⟨e0, he0, rfl⟩ := List.mem_map.mp hmem
  exact ⟨e0, he0, rfl⟩

/-- Claim C2 counterexample: the PDAG `A → B → C – A` contains a cycle
formed by the DIRECTED edges together with an UNDIRECTED edge traversed
from `C` back to `A`, yet its construction succeeds instead of raising the
not-a-PDAG error (as the test `test_graph_pdag_abc_acyclic2_ok` requires:
the implemented cycle check covers DIRECTED edges only). -/
theorem pdag_mixed_cycle_constructs :
    mkPDAGt ["A", "B", "C"]
      [("A", "B", .DIRECTED), ("B", "C", .DIRECTED), ("C", "A", .UNDIRECTED)]
      = .ok ⟨.PDAG, ⟨["A", "B", "C"],
        [(("A", "B"), .DIRECTED), (("A", "C"), .UNDIRECTED),
         (("B", "C"), .DIRECTED)]⟩⟩ ∧
    List.Chain (fun a b =>
      isDirEdge [(("A", "B"), .DIRECTED), (("A", "C"), .UNDIRECTED),
        (("B", "C"), .DIRECTED)] a b = true ∨
      isUndirPair [(("A", "B"), .DIRECTED), (("A", "C"), .UNDIRECTED),
        (("B", "C"), .DIRECTED)] a b = true)
      "A" (["B", "C"] ++ ["A"]) := by
  refine ⟨by decide, ?_⟩
  exact List.Chain.cons (Or.inl (by decide))
    (List.Chain.cons (Or.inl (by decide))
      (List.Chain.cons (Or.inr (by decide)) List.Chain.nil))

/-- Claim C2 (amended): for every input passing the five universal
invariants with every edge DIRECTED or UNDIRECTED, constructing a PDAG
raises the dedicated not-a-PDAG error whenever the DIRECTED edges alone
contain a cycle, and succeeds whenever they do not — undirected edges do
not participate in the cycle check. -/
theorem pdag_construction_spec :
    ∀ (ns : List String) (es : List (String × String × EdgeType)) (g : Graph),
      mkGraphCore ns es = .ok g →
      (∀ e ∈ es, e.2.2 = .DIRECTED ∨ e.2.2 = .UNDIRECTED) →
      (HasCycle g.parents →
        ∃ msg, mkPDAGt ns es = .error (.notPDAGErr msg)) ∧
      (¬ HasCycle g.parents → mkPDAGt ns es = .ok ⟨.PDAG, g⟩) := by
  intro ns es g hcore htypes
  have hv := mkGraphCore_valid hcore
  have hred : mkPDAGt ns es =
      (if g.edges.any (fun e => ¬ (e.2 = .DIRECTED ∨ e.2 = .UNDIRECTED)) then
        .error (.notPDAGErr "edge types not permissible in a PDAG")
      else if (partialOrder g.parents (some g.nodes) none).isNone then
        .error (.notPDAGErr "PDAG contains directed cycle")
      else .ok ⟨.PDAG, g⟩) := by
    unfold mkPDAGt
    rw [hcore]
    rfl
  have htypes2 : ¬ (g.edges.any
      (fun e => ¬ (e.2 = .DIRECTED ∨ e.2 = .UNDIRECTED)) = true) := by
    simp only [List.any_eq_true, decide_eq_true_eq, not_exists]
    rintro e ⟨hmem, hne⟩
    obtain ⟨e0, he0, heq⟩ := edge_types_preserved hcore e hmem
    exact hne (heq ▸ htypes e0 he0)
  rw [if_neg htypes2] at hred
  constructor
  · intro hcyc
    have : partialOrder g.parents (some g.nodes) none = none :=
      (partialOrder_graph_none_iff_hasCycle hv).mpr hcyc
    rw [hred, this]
    exact ⟨_, rfl⟩
  · intro hncyc
    cases hL : partialOrder g.parents (some g.nodes) none with
    | none =>
      exact absurd ((partialOrder_graph_none_iff_hasCycle hv).mp hL) hncyc
    | some L =>
      rw [hred, hL]
      rfl

/-- Claim C2 (amended) witness: the all-directed 3-cycle `A → B → C → A`
passes the universal checks, its parent relation has a directed cycle, and
construction raises the not-a-PDAG error; the partially-directed
`A → B – C` has no directed cycle and constructs successfully. -/
theorem pdag_construction_spec_witness :
    (∃ msg, mkPDAGt ["A", "B", "C"]
      [("A", "B", .DIRECTED), ("B", "C", .DIRECTED), ("C", "A", .DIRECTED)]
      = .error (.notPDAGErr msg)) ∧
    mkPDAGt ["A", "B", "C"]
      [("A", "B", .DIRECTED), ("B", "C", .UNDIRECTED)]
      = .ok ⟨.PDAG, ⟨["A", "B", "C"],
        [(("A", "B"), .DIRECTED), (("B", "C"), .UNDIRECTED)]⟩⟩ := by
  constructor
  · refine (pdag_construction_spec ["A", "B", "C"]
      [("A", "B", .DIRECTED), ("B", "C", .DIRECTED), ("C", "A", .DIRECTED)]
      ⟨["A", "B", "C"],
        [(("A", "B"), .DIRECTED), (("B", "C"), .DIRECTED),
         (("C", "A"), .DIRECTED)]⟩
      (by decide) (by decide)).1 ?_
    refine ⟨"A", ["B", "C"], ?_⟩
    exact List.Chain.cons (by decide)
      (List.Chain.cons (by decide)
        (List.Chain.cons (by decide) List.Chain.nil))
  · have hcore : mkGraphCore ["A", "B", "C"]
        [("A", "B", .DIRECTED), ("B", "C", .UNDIRECTED)]
        = .ok ⟨["A", "B", "C"],
          [(("A", "B"), .DIRECTED), (("B", "C"), .UNDIRECTED)]⟩ := by decide
    refine (pdag_construction_spec ["A", "B", "C"]
      [("A", "B", .DIRECTED), ("B", "C", .UNDIRECTED)]
      ⟨["A", "B", "C"],
        [(("A", "B"), .DIRECTED), (("B", "C"), .UNDIRECTED)]⟩
      hcore (by decide)).2
      (fun hcyc => ?_)
    have hnone := (partialOrder_graph_none_iff_hasCycle
      (mkGraphCore_valid hcore)).mpr hcyc
    exact absurd hnone (by decide)

theorem char_toNat_lt (c : Char) : c.toNat < 1114112 := by
  rcases c.valid with h | ⟨_, h2⟩
  · exact Nat.lt_trans (by exact_mod_cast h) (by norm_num)
  · exact_mod_cast h2

theorem utf8DecodeChar_utf8Char (c : Char) (r : List Nat) :
    utf8DecodeChar (utf8Char c ++ r) = some (c, r) := by
  have hlt := char_toNat_lt c
  by_cases h1 : c.toNat < 128
  case pos =>
    have he : utf8Char c = [c.toNat] := by simp [utf8Char, h1]
    rw [he, List.cons_append, List.nil_append]
    simp only [utf8DecodeChar]
    rw [if_pos h1, Char.ofNat_toNat]
  case neg => ?_
  by_cases h2 : c.toNat < 2048
  case pos =>
    have he : utf8Char c = [192 + c.toNat / 64, 128 + c.toNat % 64] := by
      simp [utf8Char, h1, h2]
    rw [he]
    show utf8DecodeChar
        ((192 + c.toNat / 64) :: (128 + c.toNat % 64) :: r) = some (c, r)
    simp only [utf8DecodeChar]
    rw [if_neg (by omega), if_neg (by omega), if_pos (by omega)]
    simp only [utf8Cont1]
    rw [if_pos (by unfold isCont; omega)]
    have harith : (192 + c.toNat / 64 - 192) * 64 +
        (128 + c.toNat % 64 - 128) = c.toNat := by omega
    rw [harith, Char.ofNat_toNat]
  case neg => ?_
  by_cases h3 : c.toNat < 65536
  case pos =>
    have he : utf8Char c = [224 + c.toNat / 4096, 128 + c.toNat / 64 % 64,
        128 + c.toNat % 64] := by
      simp [utf8Char, h1, h2, h3]
    rw [he]
    show utf8DecodeChar ((224 + c.toNat / 4096) :: (128 + c.toNat / 64 % 64) ::
        (128 + c.toNat % 64) :: r) = some (c, r)
    simp only [utf8DecodeChar]
    rw [if_neg (by omega), if_neg (by omega), if_neg (by omega),
      if_pos (by omega)]
    simp only [utf8Cont2]
    rw [if_pos (by unfold isCont; omega)]
    have harith : (224 + c.toNat / 4096 - 224) * 4096 +
        (128 + c.toNat / 64 % 64 - 128) * 64 +
        (128 + c.toNat % 64 - 128) = c.toNat := by omega
    rw [harith, Char.ofNat_toNat]
  case neg =>
    have he : utf8Char c = [240 + c.toNat / 262144, 128 + c.toNat / 4096 % 64,
        128 + c.toNat / 64 % 64, 128 + c.toNat % 64] := by
      simp [utf8Char, h1, h2, h3]
    rw [he]
    show utf8DecodeChar ((240 + c.toNat / 262144) ::
        (128 + c.toNat / 4096 % 64) :: (128 + c.toNat / 64 % 64) ::
        (128 + c.toNat % 64) :: r) = some (c, r)
    simp only [utf8DecodeChar]
    rw [if_neg (by omega), if_neg (by omega), if_neg (by omega),
      if_neg (by omega), if_pos (by omega)]
    simp only [utf8Cont3]
    rw [if_pos (by unfold isCont; omega)]
    have harith : (240 + c.toNat / 262144 - 240) * 262144 +
        (128 + c.toNat / 4096 % 64 - 128) * 4096 +
        (128 + c.toNat / 64 % 64 - 128) * 64 +
        (128 + c.toNat % 64 - 128) = c.toNat := by omega
    rw [harith, Char.ofNat_toNat]

theorem utf8Char_ne_nil (c : Char) : utf8Char c ≠ [] := by
  by_cases h1 : c.toNat < 128 <;> by_cases h2 : c.toNat < 2048 <;>
    by_cases h3 : c.toNat < 65536 <;> simp [utf8Char, h1, h2, h3]

theorem utf8Char_length_pos (c : Char) : 1 ≤ (utf8Char c).length :=
  Nat.one_le_iff_ne_zero.mpr
    (fun h => utf8Char_ne_nil c (List.length_eq_zero.mp h))

theorem utf8DecodeLoop_encoded :
    ∀ (cs : List Char) (fuel : Nat),
      ((cs.map utf8Char).flatten).length ≤ fuel →
      utf8DecodeLoop fuel ((cs.map utf8Char).flatten) = some cs := by
  intro cs
  induction cs with
  | nil => intro fuel _; cases fuel <;> rfl
  | cons c cs ih =>
    intro fuel hlen
    simp only [List.map_cons, List.flatten_cons] at hlen ⊢
    cases fuel with
    | zero =>
      exfalso
      rw [List.length_append] at hlen
      have := utf8Char_length_pos c
      omega
    | succ fuel =>
      obtain ⟨b, bs, hb⟩ : ∃ b bs, utf8Char c ++ (cs.map utf8Char).flatten =
          b :: bs := by
        cases he : utf8Char c with
        | nil => exact absurd he (utf8Char_ne_nil c)
        | cons b bs => exact ⟨b, bs ++ (cs.map utf8Char).flatten, by simp [he]⟩
      rw [hb]
      simp only [utf8DecodeLoop]
      rw [← hb, utf8DecodeChar_utf8Char]
      have hlen2 : ((cs.map utf8Char).flatten).length ≤ fuel := by
        rw [List.length_append] at hlen
        have := utf8Char_length_pos c
        omega
      show Option.map (fun cs => c :: cs)
        (utf8DecodeLoop fuel ((cs.map utf8Char).flatten)) = some (c :: cs)
      rw [ih fuel hlen2]
      rfl

theorem utf8Decode_utf8Str (s : String) : utf8Decode (utf8Str s) = some s := by
  unfold utf8Decode utf8Str
  rw [utf8DecodeLoop_encoded s.data _ le_rfl]
  show some (List.asString s.data) = some s
  cases s
  rfl

theorem readU16_u16be (n : Nat) (r : List Nat) :
    readU16 (u16be n ++ r) = .ok (n / 256 * 256 + n % 256, r) := rfl

theorem readU16_u16be_id (n : Nat) (r : List Nat) :
    readU16 (u16be n ++ r) = .ok (n, r) := by
  rw [readU16_u16be]
  have h : n / 256 * 256 + n % 256 = n := by omega
  rw [h]

theorem readNames_encoded :
    ∀ (names : List String) (r : List Nat),
      readNames names.length
        ((names.map (fun n => u16be (utf8Len n) ++ utf8Str n)).flatten ++ r)
        = .ok (names, r) := by
  intro names
  induction names with
  | nil => intro r; rfl
  | cons n names ih =>
    intro r
    simp only [List.map_cons, List.flatten_cons, List.length_cons]
    rw [List.append_assoc, List.append_assoc]
    simp only [readNames]
    rw [readU16_u16be_id]
    simp only [Bind.bind, Except.bind]
    have htake : ((utf8Str n ++ ((names.map
        (fun n => u16be (utf8Len n) ++ utf8Str n)).flatten ++ r)).take
        (utf8Len n)) = utf8Str n := by
      rw [show utf8Len n = (utf8Str n).length from rfl, List.take_left]
    have hdrop : ((utf8Str n ++ ((names.map
        (fun n => u16be (utf8Len n) ++ utf8Str n)).flatten ++ r)).drop
        (utf8Len n)) = (names.map
        (fun n => u16be (utf8Len n) ++ utf8Str n)).flatten ++ r := by
      rw [show utf8Len n = (utf8Str n).length from rfl, List.drop_left]
    rw [if_pos (by
      rw [List.length_append]
      exact Nat.le_add_right _ _), htake, utf8Decode_utf8Str, hdrop, ih r]

theorem ofCode_code (t : EdgeType) : EdgeType.ofCode t.code = some t := by
  cases t <;> rfl

theorem readEdges_encoded :
    ∀ (es : List ((String × String) × EdgeType)) (nodes : List String)
      (r : List Nat),
      (∀ e ∈ es, e.1.1 ∈ nodes ∧ e.1.2 ∈ nodes) →
      readEdges nodes.length es.length
        ((es.map (fun e => u16be (nodes.indexOf e.1.1) ++
          u16be (nodes.indexOf e.1.2) ++ [e.2.code])).flatten ++ r)
        = .ok (es.map (fun e =>
            (nodes.indexOf e.1.1, nodes.indexOf e.1.2, e.2.code)), r) := by
  intro es nodes
  induction es with
  | nil => intro r _; rfl
  | cons e es ih =>
    intro r hmem
    have hi1 : nodes.indexOf e.1.1 < nodes.length :=
      List.indexOf_lt_length.mpr (hmem e (List.mem_cons_self _ _)).1
    have hi2 : nodes.indexOf e.1.2 < nodes.length :=
      List.indexOf_lt_length.mpr (hmem e (List.mem_cons_self _ _)).2
    have hrec := ih r (fun e2 he2 => hmem e2 (List.mem_cons_of_mem _ he2))
    simp only [List.map_cons, List.flatten_cons, List.length_cons,
      List.append_assoc, List.singleton_append, List.cons_append,
      List.nil_append, readEdges, readU16_u16be_id, Bind.bind, Except.bind]
    rw [if_neg (by omega)]
    rw [if_neg (by rw [ofCode_code]; simp)]
    simp only [List.append_assoc] at hrec
    rw [hrec]

theorem getD_indexOf {l : List String} {a : String} (h : a ∈ l) :
    l.getD (l.indexOf a) "" = a := by
  rw [List.getD_eq_getElem?_getD,
    List.getElem?_eq_getElem (List.indexOf_lt_length.mpr h)]
  simp [List.getElem_indexOf]

/-- The byte string `encode` produces for a graph within limits. -/
theorem encode_eq {g : Graph} (hw : WithinLimits g) :
    encode g = .ok (u16be g.nodes.length ++
      (g.nodes.map (fun n => u16be (utf8Len n) ++ utf8Str n)).flatten ++
      u16be g.edges.length ++
      (g.edges.map (fun e => u16be (g.nodes.indexOf e.1.1) ++
        u16be (g.nodes.indexOf e.1.2) ++ [e.2.code])).flatten) := by
  obtain ⟨h1, h2, h3⟩ := hw
  unfold encode
  have hname : ¬ (g.nodes.any (fun n => utf8Len n > 65535) = true) := by
    simp only [List.any_eq_true, decide_eq_true_eq, not_exists, not_and]
    intro n hn
    have := h3 n hn
    omega
  rw [if_neg (by omega), if_neg hname, if_neg (by omega)]

theorem readEdges_encoded_nil (es : List ((String × String) × EdgeType))
    (nodes : List String) (h : ∀ e ∈ es, e.1.1 ∈ nodes ∧ e.1.2 ∈ nodes) :
    readEdges nodes.length es.length
      ((es.map (fun e => u16be (nodes.indexOf e.1.1) ++
        u16be (nodes.indexOf e.1.2) ++ [e.2.code])).flatten)
      = .ok (es.map (fun e =>
          (nodes.indexOf e.1.1, nodes.indexOf e.1.2, e.2.code)), []) := by
  have hx := readEdges_encoded es nodes [] h
  rwa [List.append_nil] at hx

theorem decode_encode {g : Graph} (hv : GraphValid g) (hw : WithinLimits g) :
    ∃ bs, encode g = .ok bs ∧ decode bs = .ok ⟨.SDG, g⟩ := by
  refine ⟨_, encode_eq hw, ?_⟩
  have hre := readEdges_encoded_nil g.edges g.nodes hv.endpointsMem
  have hmap : (g.edges.map (fun e =>
      (g.nodes.indexOf e.1.1, g.nodes.indexOf e.1.2, e.2.code))).map
      (fun e => (g.nodes.getD e.1 "", g.nodes.getD e.2.1 "",
        (EdgeType.ofCode e.2.2).getD EdgeType.NONE)) =
      g.edges.map (fun e => (e.1.1, e.1.2, e.2)) := by
    rw [List.map_map]
    apply List.map_congr_left
    intro e hmem
    show (g.nodes.getD (g.nodes.indexOf e.1.1) "",
      g.nodes.getD (g.nodes.indexOf e.1.2) "",
      (EdgeType.ofCode e.2.code).getD EdgeType.NONE) = (e.1.1, e.1.2, e.2)
    rw [getD_indexOf (hv.endpointsMem e hmem).1,
      getD_indexOf (hv.endpointsMem e hmem).2, ofCode_code]
    rfl
  simp only [List.append_assoc] at hre
  simp only [decode, Bind.bind, Except.bind, List.append_assoc,
    readU16_u16be_id, readNames_encoded, hre, hmap, mkGraphCore_self hv,
    pure, Except.pure]

theorem prefix_split {α : Type} {p a b : List α} (h : p <+: a ++ b) :
    (p.length < a.length ∧ p <+: a) ∨ ∃ q, p = a ++ q ∧ q <+: b := by
  have heq : p = (a ++ b).take p.length := List.prefix_iff_eq_take.mp h
  rcases lt_or_le p.length a.length with hlt | hle
  · left
    refine ⟨hlt, ?_⟩
    rw [List.take_append_eq_append_take, Nat.sub_eq_zero_of_le (le_of_lt hlt),
      List.take_zero, List.append_nil] at heq
    rw [heq]
    exact List.take_prefix _ _
  · right
    rw [List.take_append_eq_append_take, List.take_of_length_le hle] at heq
    exact ⟨b.take (p.length - a.length), heq, List.take_prefix _ _⟩

theorem ofCode_none_of_ge7 {c : Nat} (h : 7 ≤ c) : EdgeType.ofCode c = none := by
  match c, h with
  | n + 7, _ => rfl

theorem utf8Len_pos {n : String} (h : n ≠ "") : 1 ≤ utf8Len n := by
  cases n with
  | mk d =>
    cases d with
    | nil => exact absurd rfl h
    | cons c cs =>
      show 1 ≤ ((List.map utf8Char (c :: cs)).flatten).length
      simp only [List.map_cons, List.flatten_cons, List.length_append]
      have := utf8Char_length_pos c
      omega

theorem readU16_short (p : List Nat) (h : p.length < 2) :
    readU16 p = .error (.valueErr "data too short") := by
  match p, h with
  | [], _ => rfl
  | [b0], _ => rfl
  | b0 :: b1 :: t, h => simp only [List.length_cons] at h; omega

theorem decode_short (p : List Nat) (h : p.length < 2) :
    decode p = .error (.valueErr "data too short") := by
  match p, h with
  | [], _ => rfl
  | [b0], _ => rfl
  | b0 :: b1 :: t, h => simp only [List.length_cons] at h; omega

theorem readNames_short (k : Nat) (p : List Nat) (h : p.length < 2) :
    readNames (k + 1) p = .error (.valueErr "data too short") := by
  match p, h with
  | [], _ => rfl
  | [b0], _ => rfl
  | b0 :: b1 :: t, h => simp only [List.length_cons] at h; omega

theorem readEdges_short (nn k : Nat) (p : List Nat) (h : p.length < 2) :
    readEdges nn (k + 1) p = .error (.valueErr "data too short") := by
  match p, h with
  | [], _ => rfl
  | [b0], _ => rfl
  | b0 :: b1 :: t, h => simp only [List.length_cons] at h; omega

theorem readNames_two (k L : Nat) (hL : 1 ≤ L) :
    readNames (k + 1) (u16be L) = .error (.valueErr "data too short") := by
  have h := readU16_u16be_id L []
  rw [List.append_nil] at h
  simp only [readNames, h, Bind.bind, Except.bind]
  rw [if_neg (by simp only [List.length_nil]; omega)]

/-- Parsing a prefix of an encoded name block either fails with a
`ValueError` (the buffer is structurally truncated) or succeeds consuming
exactly the whole block. -/
theorem readNames_prefix :
    ∀ (names : List String), (∀ n ∈ names, n ≠ "") → ∀ (r p : List Nat),
      p <+: ((names.map (fun n => u16be (utf8Len n) ++ utf8Str n)).flatten
        ++ r) →
      (∃ e, readNames names.length p = .error e ∧ e.isValueError = true) ∨
      (∃ q, p = (names.map (fun n => u16be (utf8Len n) ++ utf8Str n)).flatten
          ++ q ∧ q <+: r ∧ readNames names.length p = .ok (names, q)) := by
  intro names
  induction names with
  | nil =>
    intro _ r p hp
    right
    exact ⟨p, (List.nil_append p).symm, by simpa using hp, rfl⟩
  | cons n names ih =>
    intro hne r p hp
    rw [List.map_cons, List.flatten_cons, List.append_assoc,
      List.append_assoc] at hp
    have hL : 1 ≤ utf8Len n := utf8Len_pos (hne n (List.mem_cons_self _ _))
    rcases prefix_split hp with ⟨hlt, hpa⟩ | ⟨p2, rfl, hp2⟩
    · -- p is shorter than the two length bytes
      left
      refine ⟨.valueErr "data too short", ?_, rfl⟩
      rw [List.length_cons]
      exact readNames_short names.length p (by simpa [u16be] using hlt)
    · -- p starts with the full length prefix of the first name
      rw [List.length_cons]
      simp only [readNames, readU16_u16be_id, Bind.bind, Except.bind]
      by_cases hpl : utf8Len n ≤ p2.length
      · rcases prefix_split hp2 with ⟨hlt2, _⟩ | ⟨p3, rfl, hp3⟩
        · exact absurd hpl (by
            rw [show (utf8Str n).length = utf8Len n from rfl] at hlt2
            omega)
        · rw [if_pos hpl]
          have htake : (utf8Str n ++ p3).take (utf8Len n) = utf8Str n := by
            rw [show utf8Len n = (utf8Str n).length from rfl, List.take_left]
          have hdrop : (utf8Str n ++ p3).drop (utf8Len n) = p3 := by
            rw [show utf8Len n = (utf8Str n).length from rfl, List.drop_left]
          rw [htake, utf8Decode_utf8Str, hdrop]
          rcases ih (fun m hm => hne m (List.mem_cons_of_mem _ hm)) r p3 hp3
            with ⟨e, he, hev⟩ | ⟨q, hq, hqr, hok⟩
          · left
            rw [he]
            exact ⟨e, rfl, hev⟩
          · right
            rw [hok]
            refine ⟨q, ?_, hqr, rfl⟩
            rw [hq]
            simp [List.append_assoc]
      · rw [if_neg hpl]
        left
        exact ⟨.valueErr "data too short", rfl, rfl⟩

/-- Parsing a prefix of an encoded edge block either fails with a
`ValueError` or succeeds consuming exactly the whole block. -/
theorem readEdges_prefix :
    ∀ (es : List ((String × String) × EdgeType)) (nodes : List String)
      (r p : List Nat),
      (∀ e ∈ es, e.1.1 ∈ nodes ∧ e.1.2 ∈ nodes) →
      p <+: ((es.map (fun e => u16be (nodes.indexOf e.1.1) ++
        u16be (nodes.indexOf e.1.2) ++ [e.2.code])).flatten ++ r) →
      (∃ e2, readEdges nodes.length es.length p = .error e2 ∧
        e2.isValueError = true) ∨
      (∃ q, p = (es.map (fun e => u16be (nodes.indexOf e.1.1) ++
          u16be (nodes.indexOf e.1.2) ++ [e.2.code])).flatten ++ q ∧
        q <+: r ∧ readEdges nodes.length es.length p =
          .ok (es.map (fun e =>
            (nodes.indexOf e.1.1, nodes.indexOf e.1.2, e.2.code)), q)) := by
  intro es
  induction es with
  | nil =>
    intro nodes r p _ hp
    right
    exact ⟨p, (List.nil_append p).symm, by simpa using hp, rfl⟩
  | cons e es ih =>
    intro nodes r p hmem hp
    rw [List.map_cons, List.flatten_cons, List.append_assoc,
      List.append_assoc, List.append_assoc] at hp
    rcases prefix_split hp with ⟨hlt, _⟩ | ⟨p2, rfl, hp2⟩
    · -- fewer than two bytes: the first index is truncated
      left
      refine ⟨.valueErr "data too short", ?_, rfl⟩
      rw [List.length_cons]
      exact readEdges_short nodes.length es.length p
        (by simpa [u16be] using hlt)
    · rw [List.length_cons]
      simp only [readEdges, readU16_u16be_id, Bind.bind, Except.bind]
      rcases prefix_split hp2 with ⟨hlt2, _⟩ | ⟨p3, rfl, hp3⟩
      · -- the second index is truncated
        left
        have hqs : readU16 p2 = .error (.valueErr "data too short") :=
          readU16_short p2 (by simpa [u16be] using hlt2)
        rw [hqs]
        exact ⟨.valueErr "data too short", rfl, rfl⟩
      · cases p3 with
        | nil =>
          -- the type-code byte is missing
          left
          exact ⟨.valueErr "data too short", rfl, rfl⟩
        | cons c p4 =>
          rw [List.singleton_append] at hp3
          obtain ⟨rfl, hp4⟩ := List.cons_prefix_cons.mp hp3
          have hi1 : nodes.indexOf e.1.1 < nodes.length :=
            List.indexOf_lt_length.mpr (hmem e (List.mem_cons_self _ _)).1
          have hi2 : nodes.indexOf e.1.2 < nodes.length :=
            List.indexOf_lt_length.mpr (hmem e (List.mem_cons_self _ _)).2
          simp only [readU16_u16be_id]
          rw [if_neg (by omega)]
          rw [if_neg (by rw [ofCode_code]; simp)]
          rcases ih nodes r p4
            (fun e2 he2 => hmem e2 (List.mem_cons_of_mem _ he2)) hp4
            with ⟨e2, he, hev⟩ | ⟨q, hq, hqr, hok⟩
          · left
            rw [he]
            exact ⟨e2, rfl, hev⟩
          · right
            rw [hok]
            refine ⟨q, ?_, hqr, rfl⟩
            rw [hq]
            simp [List.append_assoc]

/-- Every proper prefix of an encoded buffer fails to decode, with a
`ValueError`. -/
theorem decode_prefix {g : Graph} {bs : List Nat} (hv : GraphValid g)
    (hw : WithinLimits g) (hbs : encode g = .ok bs) {p : List Nat}
    (hp : p <+: bs) (hne : p ≠ bs) :
    ∃ e, decode p = .error e ∧ e.isValueError = true := by
  rw [encode_eq hw] at hbs
  injection hbs with hbs
  subst hbs
  rw [List.append_assoc, List.append_assoc] at hp hne
  rcases prefix_split hp with ⟨hlt, _⟩ | ⟨p1, rfl, hp1⟩
  · exact ⟨.valueErr "data too short",
      decode_short p (by simpa [u16be] using hlt), rfl⟩
  · rcases readNames_prefix g.nodes (fun m hm => hv.namesNonempty m hm) _ p1
      hp1 with ⟨e, he, hev⟩ | ⟨q, rfl, hq, hok⟩
    · refine ⟨e, ?_, hev⟩
      simp only [decode, Bind.bind, Except.bind, readU16_u16be_id, he]
    · rcases prefix_split hq with ⟨hlt2, _⟩ | ⟨q2, rfl, hq2⟩
      · refine ⟨.valueErr "data too short", ?_, rfl⟩
        have hqs : readU16 q = .error (.valueErr "data too short") :=
          readU16_short q (by simpa [u16be] using hlt2)
        simp only [decode, Bind.bind, Except.bind, readU16_u16be_id, hok, hqs]
      · rcases readEdges_prefix g.edges g.nodes [] q2 hv.endpointsMem
          (by rwa [List.append_nil]) with ⟨e, he, hev⟩ | ⟨q3, rfl, hq3, _⟩
        · refine ⟨e, ?_, hev⟩
          simp only [decode, Bind.bind, Except.bind, readU16_u16be_id, hok, he]
        · obtain rfl : q3 = [] := List.prefix_nil.mp hq3
          exact absurd (by simp) hne

theorem encode_error_iff (g : Graph) :
    ¬ WithinLimits g ↔ ∃ e, encode g = .error e ∧ e.isValueError = true := by
  unfold encode WithinLimits
  by_cases h1 : g.nodes.length > 65535
  · rw [if_pos h1]
    exact ⟨fun _ => ⟨.valueErr "too many nodes", rfl, rfl⟩,
      fun _ h => absurd h.1 (by omega)⟩
  · rw [if_neg h1]
    by_cases h2 : g.nodes.any (fun n => utf8Len n > 65535) = true
    · rw [if_pos h2]
      simp only [List.any_eq_true, decide_eq_true_eq] at h2
      obtain ⟨n, hn, hlen⟩ := h2
      exact ⟨fun _ => ⟨.valueErr "node name too long", rfl, rfl⟩,
        fun _ h => absurd (h.2.2 n hn) (by omega)⟩
    · rw [if_neg h2]
      by_cases h3 : g.edges.length > 65535
      · rw [if_pos h3]
        exact ⟨fun _ => ⟨.valueErr "too many edges", rfl, rfl⟩,
          fun _ h => absurd h.2.1 (by omega)⟩
      · rw [if_neg h3]
        simp only [List.any_eq_true, decide_eq_true_eq] at h2
        push_neg at h2
        constructor
        · intro hc
          exact absurd ⟨by omega, by omega, fun n hn => by
            have := h2 n hn
            omega⟩ hc
        · rintro ⟨e, he, _⟩
          simp at he

/-- A one-edge buffer whose record carries an out-of-range node index or a
type code above 6 fails to decode with a `ValueError`. -/
theorem decode_bad_record (names : List String) (s t c : Nat)
    (hbad : names.length ≤ s ∨ names.length ≤ t ∨ 7 ≤ c) :
    ∃ e, decode (u16be names.length ++
        (names.map (fun n => u16be (utf8Len n) ++ utf8Str n)).flatten ++
        u16be 1 ++ u16be s ++ u16be t ++ [c]) = .error e ∧
      e.isValueError = true := by
  have hre : ∀ e2 : Except GErr (List (Nat × Nat × Nat) × List Nat),
      readEdges names.length 1 (u16be s ++ (u16be t ++ [c])) = e2 →
      decode (u16be names.length ++
        (names.map (fun n => u16be (utf8Len n) ++ utf8Str n)).flatten ++
        u16be 1 ++ u16be s ++ u16be t ++ [c]) =
        (e2.bind (fun raw => (mkGraphCore names (raw.1.map
          (fun e => (names.getD e.1 "", names.getD e.2.1 "",
            (EdgeType.ofCode e.2.2).getD .NONE)))).bind
          (fun g => pure ⟨.SDG, g⟩))) := by
    intro e2 he2
    simp only [decode, Bind.bind, Except.bind, List.append_assoc,
      readU16_u16be_id, readNames_encoded, he2]
  have hstep : readEdges names.length 1 (u16be s ++ (u16be t ++ [c])) =
      (if names.length ≤ s ∨ names.length ≤ t then
        .error (.valueErr "invalid node index in edge")
      else if (EdgeType.ofCode c).isNone then
        .error (.valueErr "invalid edge type")
      else .ok ([(s, t, c)], [])) := by
    simp only [readEdges, readU16_u16be_id, Bind.bind, Except.bind,
      List.singleton_append]
  by_cases hidx : names.length ≤ s ∨ names.length ≤ t
  · rw [if_pos hidx] at hstep
    refine ⟨.valueErr "invalid node index in edge", ?_, rfl⟩
    rw [hre _ hstep]
    rfl
  · have hc : 7 ≤ c := by tauto
    rw [if_neg hidx, if_pos (by rw [ofCode_none_of_ge7 hc]; rfl)] at hstep
    refine ⟨.valueErr "invalid edge type", ?_, rfl⟩
    rw [hre _ hstep]
    rfl

/-- Claim C7 witness: constructing with nodes `["B", "A"]` and the
undirected edge given as `("B", "A")` stores nodes sorted and the edge
under the ascending key, while the directed edge `("B", "A")` keeps the
caller's order. -/
theorem canonical_ordering_spec_witness :
    List.Sorted (· < ·) (["A", "B"] : List String) ∧
    (upair "B" "A", EdgeType.UNDIRECTED) ∈
      ([(("A", "B"), EdgeType.UNDIRECTED)] :
        List ((String × String) × EdgeType)) ∧
    (("B", "A"), EdgeType.DIRECTED) ∈
      ([(("B", "A"), EdgeType.DIRECTED)] :
        List ((String × String) × EdgeType)) := by
  have h1 := canonical_ordering_spec.1 ["B", "A"] [("B", "A", .UNDIRECTED)]
    ⟨["A", "B"], [(("A", "B"), .UNDIRECTED)]⟩ (by decide)
  have h2 := canonical_ordering_spec.1 ["B", "A"] [("B", "A", .DIRECTED)]
    ⟨["A", "B"], [(("B", "A"), .DIRECTED)]⟩ (by decide)
  have hm1 := h1.2.1 "B" "A" .UNDIRECTED (by decide)
  have hm2 := h2.2.1 "B" "A" .DIRECTED (by decide)
  rw [if_pos (by decide)] at hm1
  rw [if_neg (by decide)] at hm2
  exact ⟨h1.1, hm1, hm2⟩

theorem keepOrOrient_refl (e : (String × String) × EdgeType) :
    keepOrOrient e e := Or.inl rfl

theorem keepOrOrient_trans {a b c : (String × String) × EdgeType}
    (h1 : keepOrOrient a b) (h2 : keepOrOrient b c) : keepOrOrient a c := by
  rcases h1 with rfl | ⟨hu, h1⟩
  · exact h2
  · rcases h1 with rfl | rfl <;> rcases h2 with rfl | ⟨hu2, _⟩
    · exact Or.inr ⟨hu, Or.inl rfl⟩
    · exact EdgeType.noConfusion hu2
    · exact Or.inr ⟨hu, Or.inr rfl⟩
    · exact EdgeType.noConfusion hu2

theorem forall2_keepOrOrient_trans :
    ∀ {l1 l2 l3 : List ((String × String) × EdgeType)},
      List.Forall₂ keepOrOrient l1 l2 → List.Forall₂ keepOrOrient l2 l3 →
      List.Forall₂ keepOrOrient l1 l3 := by
  intro l1 l2 l3 h1
  induction h1 generalizing l3 with
  | nil => intro h2; cases h2; exact List.Forall₂.nil
  | cons hab htail ih =>
    intro h2
    cases h2 with
    | cons hbc htail2 =>
      exact List.Forall₂.cons (keepOrOrient_trans hab hbc) (ih htail2)

theorem orientAllInto_keepOrOrient
    (es : List ((String × String) × EdgeType)) (x : String) :
    List.Forall₂ keepOrOrient es (orientAllInto es x) := by
  unfold orientAllInto
  rw [List.forall₂_map_right_iff, List.forall₂_same]
  intro e _
  by_cases h1 : (e.2 == EdgeType.UNDIRECTED && e.1.1 == x) = true
  · rw [if_pos h1]
    simp only [Bool.and_eq_true, beq_iff_eq] at h1
    exact Or.inr ⟨h1.1, Or.inr (by rw [h1.2])⟩
  · rw [if_neg h1]
    by_cases h2 : (e.2 == EdgeType.UNDIRECTED && e.1.2 == x) = true
    · rw [if_pos h2]
      simp only [Bool.and_eq_true, beq_iff_eq] at h2
      exact Or.inr ⟨h2.1, Or.inl (by rw [h2.2])⟩
    · rw [if_neg h2]
      exact keepOrOrient_refl e

theorem mem_orientChoices :
    ∀ {es0 es : List ((String × String) × EdgeType)},
      List.Forall₂ keepOrOrient es0 es →
      (∀ e ∈ es, e.2 ≠ EdgeType.UNDIRECTED) → es ∈ orientChoices es0 := by
  intro es0
  induction es0 with
  | nil =>
    intro es h _
    cases h
    exact List.mem_singleton.mpr rfl
  | cons e rest ih =>
    intro es h hu
    cases h with
    | cons he htail =>
      rename_i e2 tail
      have htmem : tail ∈ orientChoices rest :=
        ih htail (fun e3 h3 => hu e3 (List.mem_cons_of_mem _ h3))
      unfold orientChoices
      by_cases hund : (e.2 == EdgeType.UNDIRECTED) = true
      · rw [if_pos hund]
        rw [beq_iff_eq] at hund
        rcases he with rfl | ⟨_, rfl | rfl⟩
        · exact absurd hund (hu e2 (List.mem_cons_self _ _))
        · exact List.mem_append_left _
            (List.mem_map.mpr ⟨tail, htmem, rfl⟩)
        · exact List.mem_append_right _
            (List.mem_map.mpr ⟨tail, htmem, rfl⟩)
      · rw [if_neg hund]
        rcases he with rfl | ⟨hu2, _⟩
        · exact List.mem_map.mpr ⟨tail, htmem, rfl⟩
        · exact absurd (show (e.2 == EdgeType.UNDIRECTED) = true by
            rw [hu2]; rfl) hund

theorem adjacent_comm (es : List ((String × String) × EdgeType))
    (a b : String) : adjacent es a b = adjacent es b a := by
  unfold adjacent
  rw [Bool.eq_iff_iff]
  simp only [List.any_eq_true, Bool.or_eq_true, Bool.and_eq_true, beq_iff_eq]
  constructor <;> (rintro ⟨e, he, h⟩; exact ⟨e, he, by tauto⟩)

theorem isUndirPair_comm (es : List ((String × String) × EdgeType))
    (a b : String) : isUndirPair es a b = isUndirPair es b a := by
  unfold isUndirPair
  rw [Bool.eq_iff_iff]
  simp only [List.any_eq_true, Bool.or_eq_true, Bool.and_eq_true, beq_iff_eq]
  constructor <;> (rintro ⟨e, he, h⟩; exact ⟨e, he, by tauto⟩)

theorem adjacent_of_undirPair {es : List ((String × String) × EdgeType)}
    {a b : String} (h : isUndirPair es a b = true) : adjacent es a b = true := by
  unfold isUndirPair at h
  unfold adjacent
  simp only [List.any_eq_true, Bool.or_eq_true, Bool.and_eq_true,
    beq_iff_eq] at h ⊢
  obtain ⟨e, he, h⟩ := h
  exact ⟨e, he, h.2⟩

theorem adjacent_of_dirEdge {es : List ((String × String) × EdgeType)}
    {a b : String} (h : isDirEdge es a b = true) : adjacent es a b = true := by
  unfold isDirEdge at h
  unfold adjacent
  simp only [List.any_eq_true, Bool.or_eq_true, Bool.and_eq_true,
    beq_iff_eq] at h ⊢
  obtain ⟨e, he, h⟩ := h
  exact ⟨e, he, Or.inl ⟨h.1.2, h.2⟩⟩

theorem adjacent_orientAllInto (es : List ((String × String) × EdgeType))
    (x a b : String) :
    adjacent (orientAllInto es x) a b = adjacent es a b := by
  unfold adjacent orientAllInto
  rw [Bool.eq_iff_iff]
  simp only [List.any_eq_true, List.mem_map, Bool.or_eq_true,
    Bool.and_eq_true, beq_iff_eq]
  constructor
  · rintro ⟨e2, ⟨e, he, rfl⟩, h⟩
    refine ⟨e, he, ?_⟩
    by_cases h1 : e.2 = EdgeType.UNDIRECTED ∧ e.1.1 = x
    · rw [if_pos h1] at h
      replace h : e.1.2 = a ∧ x = b ∨ e.1.2 = b ∧ x = a := h
      rw [← h1.2] at h
      tauto
    · rw [if_neg h1] at h
      by_cases h2 : e.2 = EdgeType.UNDIRECTED ∧ e.1.2 = x
      · rw [if_pos h2] at h
        replace h : e.1.1 = a ∧ x = b ∨ e.1.1 = b ∧ x = a := h
        rw [← h2.2] at h
        tauto
      · rw [if_neg h2] at h
        exact h
  · rintro ⟨e, he, h⟩
    refine ⟨_, ⟨e, he, rfl⟩, ?_⟩
    by_cases h1 : e.2 = EdgeType.UNDIRECTED ∧ e.1.1 = x
    · rw [if_pos h1]
      show e.1.2 = a ∧ x = b ∨ e.1.2 = b ∧ x = a
      rw [← h1.2]
      tauto
    · rw [if_neg h1]
      by_cases h2 : e.2 = EdgeType.UNDIRECTED ∧ e.1.2 = x
      · rw [if_pos h2]
        show e.1.1 = a ∧ x = b ∨ e.1.1 = b ∧ x = a
        rw [← h2.2]
        tauto
      · rw [if_neg h2]
        exact h

theorem isDirEdge_orientAllInto (es : List ((String × String) × EdgeType))
    (x a c : String) :
    isDirEdge (orientAllInto es x) a c = true ↔
      (isDirEdge es a c = true ∨ (c = x ∧ isUndirPair es a x = true)) := by
  unfold isDirEdge isUndirPair orientAllInto
  simp only [List.any_eq_true, List.mem_map, Bool.or_eq_true,
    Bool.and_eq_true, beq_iff_eq]
  constructor
  · rintro ⟨e2, ⟨e, he, rfl⟩, h⟩
    by_cases h1 : e.2 = EdgeType.UNDIRECTED ∧ e.1.1 = x
    · rw [if_pos h1] at h
      replace h : (EdgeType.DIRECTED = EdgeType.DIRECTED ∧ e.1.2 = a) ∧
          x = c := h
      right
      exact ⟨h.2.symm, e, he, h1.1, Or.inr ⟨h1.2, h.1.2⟩⟩
    · rw [if_neg h1] at h
      by_cases h2 : e.2 = EdgeType.UNDIRECTED ∧ e.1.2 = x
      · rw [if_pos h2] at h
        replace h : (EdgeType.DIRECTED = EdgeType.DIRECTED ∧ e.1.1 = a) ∧
            x = c := h
        right
        exact ⟨h.2.symm, e, he, h2.1, Or.inl ⟨h.1.2, h2.2⟩⟩
      · rw [if_neg h2] at h
        exact Or.inl ⟨e, he, h⟩
  · rintro (⟨e, he, h⟩ | ⟨hcx, e, he, hu, hor⟩)
    · refine ⟨_, ⟨e, he, rfl⟩, ?_⟩
      have h1 : ¬ (e.2 = EdgeType.UNDIRECTED ∧ e.1.1 = x) := by
        rintro ⟨hun, _⟩
        rw [h.1.1] at hun
        exact EdgeType.noConfusion hun
      have h2 : ¬ (e.2 = EdgeType.UNDIRECTED ∧ e.1.2 = x) := by
        rintro ⟨hun, _⟩
        rw [h.1.1] at hun
        exact EdgeType.noConfusion hun
      rw [if_neg h1, if_neg h2]
      exact h
    · subst c
      rcases hor with ⟨hea, hex⟩ | ⟨hex, hea⟩
      · -- e stored as (a, x)
        refine ⟨_, ⟨e, he, rfl⟩, ?_⟩
        by_cases h1 : e.2 = EdgeType.UNDIRECTED ∧ e.1.1 = x
        · rw [if_pos h1]
          show (EdgeType.DIRECTED = EdgeType.DIRECTED ∧ e.1.2 = a) ∧ x = x
          refine ⟨⟨rfl, ?_⟩, rfl⟩
          rw [hex, ← h1.2, hea]
        · rw [if_neg h1, if_pos ⟨hu, hex⟩]
          exact ⟨⟨rfl, hea⟩, rfl⟩
      · -- e stored as (x, a)
        refine ⟨_, ⟨e, he, rfl⟩, ?_⟩
        rw [if_pos ⟨hu, hex⟩]
        exact ⟨⟨rfl, hea⟩, rfl⟩

theorem mem_undirNeighborsIn {es : List ((String × String) × EdgeType)}
    {rem : List String} {x w : String} :
    w ∈ undirNeighborsIn es rem x ↔
      w ∈ rem ∧ w ≠ x ∧ isUndirPair es x w = true := by
  unfold undirNeighborsIn
  rw [List.mem_filter]
  simp only [Bool.and_eq_true, Bool.not_eq_true', beq_eq_false_iff_ne,
    ne_eq, decide_eq_true_eq, beq_iff_eq]

theorem mem_neighborsIn {es : List ((String × String) × EdgeType)}
    {rem : List String} {x w : String} :
    w ∈ neighborsIn es rem x ↔
      w ∈ rem ∧ w ≠ x ∧ adjacent es x w = true := by
  unfold neighborsIn
  rw [List.mem_filter]
  simp only [Bool.and_eq_true, Bool.not_eq_true', beq_eq_false_iff_ne,
    ne_eq, decide_eq_true_eq, beq_iff_eq]

theorem eligible_spec {es : List ((String × String) × EdgeType)}
    {rem : List String} {x : String} (h : eligible es rem x = true) :
    (∀ e ∈ es, e.2 = EdgeType.DIRECTED → e.1.1 = x → e.1.2 ∉ rem) ∧
    (∀ u ∈ undirNeighborsIn es rem x, ∀ w ∈ neighborsIn es rem x,
      w = u ∨ adjacent es u w = true) := by
  unfold eligible at h
  rw [Bool.and_eq_true] at h
  obtain ⟨ha, hb⟩ := h
  constructor
  · intro e he hd hsrc hmem
    rw [decide_eq_true_eq, Bool.not_eq_true, List.any_eq_false] at ha
    have hpe : (e.2 == EdgeType.DIRECTED && e.1.1 == x &&
        rem.contains e.1.2) = true := by
      simp [hd, hsrc, hmem]
    exact ha e he hpe
  · intro u hu w hw
    rw [List.all_eq_true] at hb
    have := hb u hu
    rw [List.all_eq_true] at this
    have := this w hw
    rw [Bool.or_eq_true, beq_iff_eq] at this
    exact this

theorem isUndirPair_mem {es : List ((String × String) × EdgeType)}
    {a b : String} (h : isUndirPair es a b = true) :
    ∃ e ∈ es, e.2 = EdgeType.UNDIRECTED ∧
      ((e.1.1 = a ∧ e.1.2 = b) ∨ (e.1.1 = b ∧ e.1.2 = a)) := by
  unfold isUndirPair at h
  simp only [List.any_eq_true, Bool.or_eq_true, Bool.and_eq_true,
    beq_iff_eq] at h
  exact h

theorem isDirEdge_mem {es : List ((String × String) × EdgeType)}
    {a b : String} (h : isDirEdge es a b = true) :
    ∃ e ∈ es, e.2 = EdgeType.DIRECTED ∧ e.1.1 = a ∧ e.1.2 = b := by
  unfold isDirEdge at h
  simp only [List.any_eq_true, Bool.and_eq_true, beq_iff_eq] at h
  obtain ⟨e, he, ⟨hd, ha⟩, hb⟩ := h
  exact ⟨e, he, hd, ha, hb⟩

/-- The Dor-Tarsi orientation step at an eligible node neither creates nor
destroys a v-structure. -/
theorem isVstruct_orientAllInto
    {es : List ((String × String) × EdgeType)} {rem : List String}
    {x : String} (helig : eligible es rem x = true)
    (hI4 : ∀ e ∈ es, e.2 = EdgeType.UNDIRECTED →
      e.1.1 ∈ rem ∧ e.1.2 ∈ rem)
    (hI5 : ∀ e ∈ es, e.2 = EdgeType.DIRECTED → e.1.2 ∈ rem → e.1.1 ∈ rem)
    (hNSL : ∀ e ∈ es, e.1.1 ≠ e.1.2) (hx : x ∈ rem) :
    ∀ a c b, isVstruct (orientAllInto es x) a c b = isVstruct es a c b := by
  have hUN : ∀ w, isUndirPair es w x = true → w ∈ undirNeighborsIn es rem x := by
    intro w hw
    obtain ⟨e, he, hu, hor⟩ := isUndirPair_mem hw
    have hwx : w ≠ x := by
      rcases hor with ⟨h1, h2⟩ | ⟨h1, h2⟩
      · intro hc; exact hNSL e he (by rw [h1, h2, hc])
      · intro hc; exact hNSL e he (by rw [h1, h2, hc])
    have hwr : w ∈ rem := by
      rcases hor with ⟨h1, _⟩ | ⟨_, h2⟩
      · exact h1 ▸ (hI4 e he hu).1
      · exact h2 ▸ (hI4 e he hu).2
    exact mem_undirNeighborsIn.mpr ⟨hwr, hwx, by rw [isUndirPair_comm]; exact hw⟩
  have hDN : ∀ w, isDirEdge es w x = true → w ∈ neighborsIn es rem x := by
    intro w hw
    obtain ⟨e, he, hd, h11, h12⟩ := isDirEdge_mem hw
    refine mem_neighborsIn.mpr ⟨?_, ?_, ?_⟩
    · rw [← h11]
      exact hI5 e he hd (by rw [h12]; exact hx)
    · intro hc
      exact hNSL e he (by rw [h11, h12]; exact hc)
    · rw [adjacent_comm]
      exact adjacent_of_dirEdge hw
  have hUN2 : ∀ w, isUndirPair es w x = true → w ∈ neighborsIn es rem x := by
    intro w hw
    obtain ⟨hr, hne, hu⟩ := mem_undirNeighborsIn.mp (hUN w hw)
    exact mem_neighborsIn.mpr ⟨hr, hne, adjacent_of_undirPair hu⟩
  intro a c b
  unfold isVstruct
  rw [adjacent_orientAllInto]
  rw [Bool.eq_iff_iff]
  simp only [Bool.and_eq_true, decide_eq_true_eq, beq_iff_eq]
  constructor
  · rintro ⟨⟨⟨h1, h2⟩, hab⟩, hadj⟩
    rcases (isDirEdge_orientAllInto es x a c).mp h1 with hd1 | ⟨hcx1, hu1⟩
    · rcases (isDirEdge_orientAllInto es x b c).mp h2 with hd2 | ⟨hcx2, hu2⟩
      · exact ⟨⟨⟨hd1, hd2⟩, hab⟩, hadj⟩
      · subst c
        exfalso
        rcases (eligible_spec helig).2 b (hUN b hu2) a (hDN a hd1) with h | h
        · exact hab h
        · rw [adjacent_comm] at h
          exact hadj h
    · subst c
      rcases (isDirEdge_orientAllInto es x b x).mp h2 with hd2 | ⟨_, hu2⟩
      · exfalso
        rcases (eligible_spec helig).2 a (hUN a hu1) b (hDN b hd2) with h | h
        · exact hab h.symm
        · exact hadj h
      · exfalso
        rcases (eligible_spec helig).2 a (hUN a hu1) b (hUN2 b hu2) with h | h
        · exact hab h.symm
        · exact hadj h
  · rintro ⟨⟨⟨h1, h2⟩, hab⟩, hadj⟩
    exact ⟨⟨⟨(isDirEdge_orientAllInto es x a c).mpr (Or.inl h1),
      (isDirEdge_orientAllInto es x b c).mpr (Or.inl h2)⟩, hab⟩, hadj⟩

theorem orientAllInto_mem {es : List ((String × String) × EdgeType)}
    {x : String} {e2 : (String × String) × EdgeType}
    (h : e2 ∈ orientAllInto es x) :
    ∃ e ∈ es,
      (¬ (e.2 = EdgeType.UNDIRECTED ∧ (e.1.1 = x ∨ e.1.2 = x)) ∧ e2 = e) ∨
      (e.2 = EdgeType.UNDIRECTED ∧ e.1.1 = x ∧
        e2 = ((e.1.2, x), EdgeType.DIRECTED)) ∨
      (e.2 = EdgeType.UNDIRECTED ∧ e.1.1 ≠ x ∧ e.1.2 = x ∧
        e2 = ((e.1.1, x), EdgeType.DIRECTED)) := by
  unfold orientAllInto at h
  obtain ⟨e, he, rfl⟩ := List.mem_map.mp h
  refine ⟨e, he, ?_⟩
  by_cases h1 : (e.2 == EdgeType.UNDIRECTED && e.1.1 == x) = true
  · rw [if_pos h1]
    simp only [Bool.and_eq_true, beq_iff_eq] at h1
    exact Or.inr (Or.inl ⟨h1.1, h1.2, rfl⟩)
  · rw [if_neg h1]
    simp only [Bool.and_eq_true, beq_iff_eq, not_and] at h1
    by_cases h2 : (e.2 == EdgeType.UNDIRECTED && e.1.2 == x) = true
    · rw [if_pos h2]
      simp only [Bool.and_eq_true, beq_iff_eq] at h2
      exact Or.inr (Or.inr ⟨h2.1, h1 h2.1, h2.2, rfl⟩)
    · rw [if_neg h2]
      simp only [Bool.and_eq_true, beq_iff_eq, not_and] at h2
      refine Or.inl ⟨?_, rfl⟩
      rintro ⟨hu, hor | hor⟩
      · exact h1 hu hor
      · exact h2 hu hor

theorem step_I4 {es : List ((String × String) × EdgeType)}
    {rem : List String} {x : String}
    (hI4 : ∀ e ∈ es, e.2 = EdgeType.UNDIRECTED →
      e.1.1 ∈ rem ∧ e.1.2 ∈ rem) :
    ∀ e2 ∈ orientAllInto es x, e2.2 = EdgeType.UNDIRECTED →
      e2.1.1 ∈ rem.erase x ∧ e2.1.2 ∈ rem.erase x := by
  intro e2 hmem hund
  obtain ⟨e, he, hcase⟩ := orientAllInto_mem hmem
  rcases hcase with ⟨hnot, heq⟩ | ⟨_, _, heq⟩ | ⟨_, _, _, heq⟩
  · subst heq
    have hne1 : e2.1.1 ≠ x := fun hc => hnot ⟨hund, Or.inl hc⟩
    have hne2 : e2.1.2 ≠ x := fun hc => hnot ⟨hund, Or.inr hc⟩
    obtain ⟨hm1, hm2⟩ := hI4 e2 he hund
    exact ⟨(List.mem_erase_of_ne hne1).mpr hm1,
      (List.mem_erase_of_ne hne2).mpr hm2⟩
  · subst heq
    exact EdgeType.noConfusion hund
  · subst heq
    exact EdgeType.noConfusion hund

theorem step_I5 {es : List ((String × String) × EdgeType)}
    {rem : List String} {x : String} (helig : eligible es rem x = true)
    (hI4 : ∀ e ∈ es, e.2 = EdgeType.UNDIRECTED →
      e.1.1 ∈ rem ∧ e.1.2 ∈ rem)
    (hI5 : ∀ e ∈ es, e.2 = EdgeType.DIRECTED → e.1.2 ∈ rem → e.1.1 ∈ rem)
    (hND : rem.Nodup) :
    ∀ e2 ∈ orientAllInto es x, e2.2 = EdgeType.DIRECTED →
      e2.1.2 ∈ rem.erase x → e2.1.1 ∈ rem.erase x := by
  intro e2 hmem hdir htgt
  obtain ⟨e, he, hcase⟩ := orientAllInto_mem hmem
  rcases hcase with ⟨_, heq⟩ | ⟨_, _, heq⟩ | ⟨_, _, _, heq⟩
  · subst heq
    have htr : e2.1.2 ∈ rem := List.mem_of_mem_erase htgt
    have hsr : e2.1.1 ∈ rem := hI5 e2 he hdir htr
    have hne : e2.1.1 ≠ x := by
      intro hc
      exact (eligible_spec helig).1 e2 he hdir hc htr
    exact (List.mem_erase_of_ne hne).mpr hsr
  · subst heq
    exact absurd htgt hND.not_mem_erase
  · subst heq
    exact absurd htgt hND.not_mem_erase

theorem step_NSL {es : List ((String × String) × EdgeType)} {x : String}
    (hNSL : ∀ e ∈ es, e.1.1 ≠ e.1.2) :
    ∀ e2 ∈ orientAllInto es x, e2.1.1 ≠ e2.1.2 := by
  intro e2 hmem
  obtain ⟨e, he, hcase⟩ := orientAllInto_mem hmem
  rcases hcase with ⟨_, heq⟩ | ⟨_, hx1, heq⟩ | ⟨_, _, hx2, heq⟩
  · subst heq
    exact hNSL e2 he
  · subst heq
    show e.1.2 ≠ x
    rw [← hx1]
    exact fun hc => hNSL e he hc.symm
  · subst heq
    show e.1.1 ≠ x
    rw [← hx2]
    exact hNSL e he

/-- The Dor-Tarsi loop, when it succeeds, returns an in-place orientation
of the input list with no undirected edge left and exactly the input's
v-structures. -/
theorem extendLoop_spec :
    ∀ (fuel : Nat) (es : List ((String × String) × EdgeType))
      (rem : List String) (es2 : List ((String × String) × EdgeType)),
      extendLoop fuel es rem = .ok es2 →
      (∀ e ∈ es, e.2 = EdgeType.UNDIRECTED →
        e.1.1 ∈ rem ∧ e.1.2 ∈ rem) →
      (∀ e ∈ es, e.2 = EdgeType.DIRECTED → e.1.2 ∈ rem → e.1.1 ∈ rem) →
      (∀ e ∈ es, e.1.1 ≠ e.1.2) → rem.Nodup →
      (∀ a c b, isVstruct es2 a c b = isVstruct es a c b) ∧
      List.Forall₂ keepOrOrient es es2 ∧
      ∀ e ∈ es2, e.2 ≠ EdgeType.UNDIRECTED := by
  intro fuel
  induction fuel with
  | zero =>
    intro es rem es2 h hI4 hI5 hNSL hND
    unfold extendLoop at h
    by_cases hcond : (es.any fun e => e.2 == EdgeType.UNDIRECTED) = true
    · rw [if_pos hcond] at h
      exact Except.noConfusion h
    · rw [if_neg hcond] at h
      injection h with h
      subst h
      refine ⟨fun a c b => rfl,
        List.forall₂_same.mpr (fun e _ => keepOrOrient_refl e), ?_⟩
      rw [Bool.not_eq_true, List.any_eq_false] at hcond
      intro e he hc
      have hfalse := hcond e he
      rw [hc] at hfalse
      exact hfalse rfl
  | succ fuel ih =>
    intro es rem es2 h hI4 hI5 hNSL hND
    unfold extendLoop at h
    by_cases hcond : (es.any fun e => e.2 == EdgeType.UNDIRECTED) = true
    · rw [if_neg (not_not_intro hcond)] at h
      cases hfind : rem.find? (fun x => eligible es rem x) with
      | none =>
        rw [hfind] at h
        exact Except.noConfusion h
      | some x =>
        rw [hfind] at h
        have helig : eligible es rem x = true := List.find?_some hfind
        have hxmem : x ∈ rem := List.mem_of_find?_eq_some hfind
        obtain ⟨hvs, hKO, hnu⟩ := ih (orientAllInto es x) (rem.erase x) es2 h
          (step_I4 hI4) (step_I5 helig hI4 hI5 hND) (step_NSL hNSL)
          (hND.erase x)
        exact ⟨fun a c b => (hvs a c b).trans
            (isVstruct_orientAllInto helig hI4 hI5 hNSL hxmem a c b),
          forall2_keepOrOrient_trans (orientAllInto_keepOrOrient es x) hKO,
          hnu⟩
    · rw [if_pos hcond] at h
      injection h with h
      subst h
      refine ⟨fun a c b => rfl,
        List.forall₂_same.mpr (fun e _ => keepOrOrient_refl e), ?_⟩
      rw [Bool.not_eq_true, List.any_eq_false] at hcond
      intro e he hc
      have hfalse := hcond e he
      rw [hc] at hfalse
      exact hfalse rfl

/-- A successful Dor-Tarsi extension exhibits a consistent acyclic
orientation of the undirected edges without new v-structures, so the
enumeration `admitsExtension` finds one too. -/
theorem extendPDAG_ok_admits {g : Graph} (hv : GraphValid g) {o : GraphObj}
    (h : extendPDAG g = .ok o) : admitsExtension g = true := by
  unfold extendPDAG at h
  obtain ⟨es, hes, h2⟩ := except_bind_ok h
  have hnd : g.nodes.Nodup := hv.nodesSorted.imp (fun hlt => ne_of_lt hlt)
  obtain ⟨hvs, hKO, hnound⟩ := extendLoop_spec g.nodes.length g.edges g.nodes
    es hes (fun e he _ => hv.endpointsMem e he)
    (fun e he _ _ => (hv.endpointsMem e he).1) hv.noSelfLoop hnd
  have hmem : es ∈ orientChoices g.edges := mem_orientChoices hKO hnound
  have hok : extensionOk g es = true := by
    unfold extensionOk
    rw [Bool.and_eq_true]
    constructor
    · rw [h2]
      rfl
    · unfold sameVstructs
      simp only [List.all_eq_true]
      intro a _ c _ b _
      rw [hvs a c b]
      exact beq_self_eq_true _
  unfold admitsExtension
  rw [List.any_eq_true]
  exact ⟨es, hmem, hok⟩

theorem mkGraphCore_error_isValue {ns : List String}
    {es : List (String × String × EdgeType)} {e : GErr}
    (h : mkGraphCore ns es = .error e) : e.isValueError = true := by
  unfold mkGraphCore at h
  split_ifs at h <;> injection h with h <;> subst h <;> rfl

theorem mkDAGt_error_isValue {ns : List String}
    {es : List (String × String × EdgeType)} {e : GErr}
    (h : mkDAGt ns es = .error e) : e.isValueError = true := by
  unfold mkDAGt at h
  rcases except_bind_error h with hg | ⟨g, _, hg⟩
  · exact mkGraphCore_error_isValue hg
  · split_ifs at hg <;> injection hg with hg <;> subst hg <;> rfl

theorem extendLoop_error_isValue :
    ∀ {fuel : Nat} {es : List ((String × String) × EdgeType)}
      {rem : List String} {e : GErr},
      extendLoop fuel es rem = .error e → e.isValueError = true := by
  intro fuel
  induction fuel with
  | zero =>
    intro es rem e h
    unfold extendLoop at h
    split_ifs at h <;> injection h with h <;> subst h <;> rfl
  | succ fuel ih =>
    intro es rem e h
    unfold extendLoop at h
    by_cases hcond : (es.any fun e => e.2 == EdgeType.UNDIRECTED) = true
    · rw [if_neg (not_not_intro hcond)] at h
      cases hfind : rem.find? (fun x => eligible es rem x) with
      | none =>
        rw [hfind] at h
        injection h with h
        subst h
        rfl
      | some x =>
        rw [hfind] at h
        exact ih h
    · rw [if_pos hcond] at h
      exact Except.noConfusion h

theorem extendPDAG_error_isValue {g : Graph} {e : GErr}
    (h : extendPDAG g = .error e) : e.isValueError = true := by
  unfold extendPDAG at h
  rcases except_bind_error h with hl | ⟨es, _, hl⟩
  · exact extendLoop_error_isValue hl
  · exact mkDAGt_error_isValue hl

/-- Claim C3: for every validly constructed graph (SDG, DAG or PDAG) whose
node count, edge count and per-name UTF-8 byte lengths are all at most
65535, `decode (encode g)` succeeds and returns an object holding exactly
`g`'s nodes list and edges mapping (whatever mix of the seven edge types
it contains); and every successful `decode`, on any buffer, returns an
`SDG`, never a DAG or PDAG. -/
theorem codec_roundtrip_spec (ns : List String)
    (raw : List (String × String × String)) (o : GraphObj)
    (h : mkSDG ns raw = .ok o ∨ mkDAG ns raw = .ok o ∨ mkPDAG ns raw = .ok o)
    (hw : WithinLimits o.graph) :
    (∃ bs, encode o.graph = .ok bs ∧
      decode bs = .ok ⟨GClass.SDG, o.graph⟩) ∧
    (∀ bs o2, decode bs = .ok o2 → o2.cls = GClass.SDG) := by
  have hval : GraphValid o.graph := by
    rcases h with h | h | h
    · obtain ⟨_, es, _, hcore⟩ := mkSDG_ok h
      exact mkGraphCore_valid hcore
    · unfold mkDAG at h
      obtain ⟨es, _, h⟩ := except_bind_ok h
      exact mkGraphCore_valid (mkDAGt_ok h).2.1
    · unfold mkPDAG at h
      obtain ⟨es, _, h⟩ := except_bind_ok h
      exact mkGraphCore_valid (mkPDAGt_ok h).2.1
  exact ⟨decode_encode hval hw, fun bs o2 h2 => (decode_ok h2).1⟩

/-- Claim C3 witness: an SDG containing all seven edge types round-trips
through the codec byte-for-byte back to the same nodes and edges, tagged as
an SDG. -/
theorem codec_roundtrip_spec_witness :
    (∃ bs, encode (Graph.mk ["A", "B", "C", "D", "E", "F", "G", "H"]
        [(("A", "B"), EdgeType.DIRECTED), (("A", "C"), EdgeType.UNDIRECTED),
         (("A", "D"), EdgeType.BIDIRECTED),
         (("A", "E"), EdgeType.SEMIDIRECTED),
         (("A", "F"), EdgeType.NONDIRECTED),
         (("A", "G"), EdgeType.SEMIUNDIRECTED),
         (("A", "H"), EdgeType.NONE)]) = .ok bs ∧
      decode bs = .ok ⟨GClass.SDG,
        Graph.mk ["A", "B", "C", "D", "E", "F", "G", "H"]
          [(("A", "B"), EdgeType.DIRECTED), (("A", "C"), EdgeType.UNDIRECTED),
           (("A", "D"), EdgeType.BIDIRECTED),
           (("A", "E"), EdgeType.SEMIDIRECTED),
           (("A", "F"), EdgeType.NONDIRECTED),
           (("A", "G"), EdgeType.SEMIUNDIRECTED),
           (("A", "H"), EdgeType.NONE)]⟩) ∧
    (∀ bs o2, decode bs = .ok o2 → o2.cls = GClass.SDG) :=
  codec_roundtrip_spec ["H", "G", "F", "E", "D", "C", "B", "A"]
    [("A", "->", "B"), ("A", "-", "C"), ("A", "<->", "D"), ("A", "o->", "E"),
     ("A", "o-o", "F"), ("A", "o-", "G"), ("A", "", "H")]
    ⟨GClass.SDG, Graph.mk ["A", "B", "C", "D", "E", "F", "G", "H"]
      [(("A", "B"), EdgeType.DIRECTED), (("A", "C"), EdgeType.UNDIRECTED),
       (("A", "D"), EdgeType.BIDIRECTED), (("A", "E"), EdgeType.SEMIDIRECTED),
       (("A", "F"), EdgeType.NONDIRECTED),
       (("A", "G"), EdgeType.SEMIUNDIRECTED), (("A", "H"), EdgeType.NONE)]⟩
    (Or.inl (by decide)) ⟨by decide, by decide, by decide⟩

/-- Claim C8: `encode` fails with a `ValueError` exactly when the node
count, the edge count or some name's UTF-8 byte length exceeds 65535;
`decode` fails with a `ValueError` on every proper prefix of an encoded
buffer (any structural truncation, including the empty buffer), and on a
buffer whose edge record carries an out-of-range node index or a type code
above 6; and on a valid within-limits graph neither direction fails. -/
theorem codec_error_spec :
    (∀ g : Graph, ¬ WithinLimits g ↔
      ∃ e, encode g = .error e ∧ e.isValueError = true) ∧
    (∀ (g : Graph) (bs p : List Nat), GraphValid g → WithinLimits g →
      encode g = .ok bs → p <+: bs → p ≠ bs →
      ∃ e, decode p = .error e ∧ e.isValueError = true) ∧
    (∀ (names : List String) (s t c : Nat),
      names.length ≤ s ∨ names.length ≤ t ∨ 7 ≤ c →
      ∃ e, decode (u16be names.length ++
          (names.map (fun n => u16be (utf8Len n) ++ utf8Str n)).flatten ++
          u16be 1 ++ u16be s ++ u16be t ++ [c]) = .error e ∧
        e.isValueError = true) ∧
    (∀ g : Graph, GraphValid g → WithinLimits g →
      ∃ bs, encode g = .ok bs ∧ ∃ o, decode bs = .ok o) :=
  ⟨encode_error_iff,
   fun _ _ p hv hw hbs hp hne => decode_prefix hv hw hbs (p := p) hp hne,
   decode_bad_record,
   fun _ hv hw =>
     match decode_encode hv hw with
     | ⟨bs, he, hd⟩ => ⟨bs, he, ⟨_, hd⟩⟩⟩

/-- Claim C8 witness: decoding the empty buffer, the one-byte buffer `[0]`
(both proper prefixes of the encoding of the graph `A -> B`), and a
one-edge buffer with node index 5 out of range all fail with `ValueError`,
while the graph `A -> B` itself encodes and decodes without error. -/
theorem codec_error_spec_witness :
    (∃ e, decode ([] : List Nat) = .error e ∧ e.isValueError = true) ∧
    (∃ e, decode [0] = .error e ∧ e.isValueError = true) ∧
    (∃ e, decode (u16be 1 ++
        ((["A"] : List String).map
          (fun n => u16be (utf8Len n) ++ utf8Str n)).flatten ++
        u16be 1 ++ u16be 5 ++ u16be 0 ++ [1]) = .error e ∧
      e.isValueError = true) ∧
    (∃ bs, encode (Graph.mk ["A", "B"] [(("A", "B"), EdgeType.DIRECTED)]) =
        .ok bs ∧ ∃ o, decode bs = .ok o) := by
  have hcore : mkGraphCore ["A", "B"] [("A", "B", EdgeType.DIRECTED)] =
      .ok (Graph.mk ["A", "B"] [(("A", "B"), EdgeType.DIRECTED)]) := by
    decide
  have hv := mkGraphCore_valid hcore
  have hw : WithinLimits (Graph.mk ["A", "B"]
      [(("A", "B"), EdgeType.DIRECTED)]) := ⟨by decide, by decide, by decide⟩
  refine ⟨?_, ?_, ?_, ?_⟩
  · exact codec_error_spec.2.1 _
      [0, 2, 0, 1, 65, 0, 1, 66, 0, 1, 0, 0, 0, 1, 1] [] hv hw (by decide)
      (by decide) (by decide)
  · exact codec_error_spec.2.1 _
      [0, 2, 0, 1, 65, 0, 1, 66, 0, 1, 0, 0, 0, 1, 1] [0] hv hw (by decide)
      (by decide) (by decide)
  · exact codec_error_spec.2.2.1 ["A"] 5 0 1 (Or.inl (by decide))
  · exact codec_error_spec.2.2.2 _ hv hw

/-- Claim C4: for every validly constructed PDAG whose undirected edges
admit no consistent acyclic extension without new v-structures, the
Dor-Tarsi extension fails with a `ValueError`, and `pdag_to_cpdag` and
`is_cpdag` on the same PDAG propagate that same error instead of answering
`False`. -/
theorem pdag_unextendable_spec (ns : List String)
    (es : List (String × String × EdgeType)) (o : GraphObj)
    (h : mkPDAGt ns es = .ok o)
    (hna : admitsExtension o.graph = false) :
    ∃ e, extendPDAG o.graph = .error e ∧ e.isValueError = true ∧
      pdag_to_cpdag o.graph = .error e ∧ is_cpdag o.graph = .error e := by
  have hval : GraphValid o.graph := mkGraphCore_valid (mkPDAGt_ok h).2.1
  cases hx : extendPDAG o.graph with
  | ok o2 =>
    have := extendPDAG_ok_admits hval hx
    rw [hna] at this
    exact Bool.noConfusion this
  | error e =>
    refine ⟨e, rfl, extendPDAG_error_isValue hx, ?_, ?_⟩
    · unfold pdag_to_cpdag
      rw [hx]
      rfl
    · unfold is_cpdag pdag_to_cpdag
      rw [hx]
      rfl

/-- Claim C4 witness: the undirected 4-cycle `1 - 2 - 3 - 4 - 1`
constructs as a PDAG, admits no consistent extension, and `extend_pdag`,
`pdag_to_cpdag` and `is_cpdag` all fail on it with the same `ValueError`. -/
theorem pdag_unextendable_spec_witness :
    ∃ e, extendPDAG (Graph.mk ["1", "2", "3", "4"]
        [(("1", "2"), EdgeType.UNDIRECTED), (("1", "4"), EdgeType.UNDIRECTED),
         (("2", "3"), EdgeType.UNDIRECTED),
         (("3", "4"), EdgeType.UNDIRECTED)]) = .error e ∧
      e.isValueError = true ∧
      pdag_to_cpdag (Graph.mk ["1", "2", "3", "4"]
        [(("1", "2"), EdgeType.UNDIRECTED), (("1", "4"), EdgeType.UNDIRECTED),
         (("2", "3"), EdgeType.UNDIRECTED),
         (("3", "4"), EdgeType.UNDIRECTED)]) = .error e ∧
      is_cpdag (Graph.mk ["1", "2", "3", "4"]
        [(("1", "2"), EdgeType.UNDIRECTED), (("1", "4"), EdgeType.UNDIRECTED),
         (("2", "3"), EdgeType.UNDIRECTED),
         (("3", "4"), EdgeType.UNDIRECTED)]) = .error e :=
  pdag_unextendable_spec ["1", "2", "3", "4"]
    [("1", "2", EdgeType.UNDIRECTED), ("2", "3", EdgeType.UNDIRECTED),
     ("3", "4", EdgeType.UNDIRECTED), ("1", "4", EdgeType.UNDIRECTED)]
    ⟨GClass.PDAG, Graph.mk ["1", "2", "3", "4"]
      [(("1", "2"), EdgeType.UNDIRECTED), (("1", "4"), EdgeType.UNDIRECTED),
       (("2", "3"), EdgeType.UNDIRECTED), (("3", "4"), EdgeType.UNDIRECTED)]⟩
    (by decide) (by decide)

end CausaliqCore
